import Mathlib

/-!
# Verification of the fiducials map fusion engine (`Map.c`, `Arc.c`)

A shallow embedding of the map fusion engine of the fiducials repository.
The C sources `Map.c` and `Arc.c` are translated function by function.
The `Tag` routines (`Tag.c` is not part of the given sources) are modelled
from the specification where a claim depends on them; every such definition
carries a doc comment saying so.

Machine `Double` values are modelled as exact fractions of integers
(the type `Q` below): the specification and the code treat doubles as real
numbers, and an exact fraction type keeps every definition kernel-computable.
The transcendental primitives (`sqrt`, `atan2`, `cos`, `sin`, angle
normalization) have no exact rational realization, so the embedding is
parameterized by a bundle `DoubleOps` supplying them; every theorem below is
proved for an arbitrary bundle, and concrete witnesses instantiate it.
-/

namespace Fiducials

/-- Exact fraction model of the C `Double` type.  The denominator is kept
positive by the smart constructor `qmk`; plain structure operations keep
everything reducible in the kernel. -/
structure Q where
  num : Int
  den : Int
  deriving DecidableEq, Repr

/-- Embed an integer as a `Q`. -/
def qof (n : Int) : Q := ⟨n, 1⟩

instance : Inhabited Q := ⟨qof 0⟩

/-- Smart constructor normalizing the sign of the denominator. -/
def qmk (n d : Int) : Q := if d < 0 then ⟨-n, -d⟩ else ⟨n, d⟩

/-- Addition of fractions. -/
def qadd (a b : Q) : Q := ⟨a.num * b.den + b.num * a.den, a.den * b.den⟩

/-- Negation of a fraction. -/
def qneg (a : Q) : Q := ⟨-a.num, a.den⟩

/-- Subtraction of fractions. -/
def qsub (a b : Q) : Q := qadd a (qneg b)

/-- Multiplication of fractions. -/
def qmul (a b : Q) : Q := ⟨a.num * b.num, a.den * b.den⟩

/-- Division of fractions; division by a zero value yields `0` (the C code
only ever divides by the nonzero literals `2.0` and `180.0`). -/
def qdiv (a b : Q) : Q := if b.num = 0 then qof 0 else qmk (a.num * b.den) (a.den * b.num)

/-- Value order on fractions (correct whenever denominators are positive,
which all fractions built by the operations above from integer literals are). -/
def qlt (a b : Q) : Prop := a.num * b.den < b.num * a.den

instance (a b : Q) : Decidable (qlt a b) := by unfold qlt; infer_instance

/-- Non-strict value order on fractions. -/
def qle (a b : Q) : Prop := a.num * b.den ≤ b.num * a.den

instance (a b : Q) : Decidable (qle a b) := by unfold qle; infer_instance

/-- The smaller of two fractions, choosing the first on ties (used to state
the monotone-quality claim). -/
def qmin (a b : Q) : Q := if qlt b a then b else a

/-- `qmin` really is a minimum for the value order: it is `≤` both arguments
and equal to one of them. -/
theorem qmin_is_min (a b : Q) : qle (qmin a b) a ∧ qle (qmin a b) b ∧ (qmin a b = a ∨ qmin a b = b) := by
  unfold qmin qle qlt
  split <;> rename_i h
  · exact ⟨le_of_lt h, le_refl _, Or.inr rfl⟩
  · exact ⟨le_refl _, le_of_not_lt h, Or.inl rfl⟩

/-- `Double__compare` from the support library: `-1`, `0`, `1` by value. -/
def Double__compare (a b : Q) : Int := if qlt a b then -1 else if qlt b a then 1 else 0

/-- `Double__absolute`: absolute value. -/
def Double__absolute (a : Q) : Q := if qlt a (qof 0) then qneg a else a

/-- `Unsigned__compare` from the support library. -/
def Unsigned__compare (a b : Nat) : Int := if a < b then -1 else if b < a then 1 else 0

/-- `Unsigned__minimum` from the support library. -/
def Unsigned__minimum (a b : Nat) : Nat := Nat.min a b

/-- `Unsigned__hash`: the support-library hash of an id.  Modelled from the
spec: anything determined by the id works ("Hash-based dedup uses the
canonical `(min_id, max_id)` pair as key", §9); we take the identity. -/
def Unsigned__hash (n : Nat) : Nat := n

/-- The double literal `3.14159265358979323846264` used for π in `Arc.c` and
`Map.c`, as an exact fraction. -/
def piQ : Q := ⟨314159265358979323846264, 100000000000000000000000⟩

/-- The sentinel goodness `123456789.0` ("never measured"). -/
def sentinelGoodness : Q := qof 123456789

/-- The transcendental `Double` primitives the C code consumes
(`Double__square_root`, `Double__arc_tangent2`, `Double__cosine`,
`Double__sine`, `Double__angle_normalize`).  They have no exact rational
realization, so the embedding is parameterized over them. -/
structure DoubleOps where
  square_root : Q → Q
  arc_tangent2 : Q → Q → Q
  cosine : Q → Q
  sine : Q → Q
  angle_normalize : Q → Q

/-- A trivial bundle of `Double` primitives used by concrete witnesses (any
bundle works for the theorems, which are universally quantified over it). -/
def opsId : DoubleOps where
  square_root := fun q => q
  arc_tangent2 := fun _ _ => qof 0
  cosine := fun _ => qof 1
  sine := fun _ => qof 0
  angle_normalize := fun q => q

/-- A `Tag_Height` entry of the height table (`Tag_Height__Struct`):
an inclusive id range with its distance-per-pixel and ceiling height. -/
structure Tag_Height where
  first_id : Nat
  last_id : Nat
  distance_per_pixel : Q
  z : Q
  deriving DecidableEq, Repr

/-- A `Tag` (marker).  `Tag.c` is not among the given sources; the fields are
those used by `Map.c`/`Arc.c` and §3 of the spec.  `arcs` holds references to
the incident `Arc` objects; in this arena embedding an `Arc` reference is its
index into the engine's arc arena, and a `Tag` reference is its id. -/
structure Tag where
  id : Nat
  x : Q
  y : Q
  twist : Q
  distance_per_pixel : Q
  z : Q
  arcs : List Nat
  hop_count : Nat
  visit : Nat
  deriving DecidableEq, Repr

/-- A dummy tag used only as the `getD` default for out-of-range fetches
(which never happen on the states the theorems speak about). -/
def tagDummy : Tag := ⟨0, qof 0, qof 0, qof 0, qof 0, qof 0, [], 0, 0⟩

instance : Inhabited Tag := ⟨tagDummy⟩

/-- An `Arc` (pairwise observation), fields as in `Arc__Struct`.
`from_tag` and `to_tag` hold the endpoint tag ids (cross-references are
resolved through the engine, as §3 of the spec prescribes for a
memory-safe embedding). -/
structure Arc where
  from_tag : Nat
  to_tag : Nat
  from_twist : Q
  to_twist : Q
  distance : Q
  goodness : Q
  in_tree : Bool
  visit : Nat
  deriving DecidableEq, Repr

/-- A dummy arc used only as the `getD` default for out-of-range fetches. -/
def arcDummy : Arc := ⟨0, 0, qof 0, qof 0, qof 0, qof 0, false, 0⟩

instance : Inhabited Arc := ⟨arcDummy⟩

/-- `Arc__new()`: a fresh arc with sentinel goodness. -/
def Arc__new : Arc :=
  { from_tag := 0, to_tag := 0, from_twist := qof 0, to_twist := qof 0
    distance := qof 0, goodness := sentinelGoodness, in_tree := false, visit := 0 }

/-- `Arc__compare(arc1, arc2)`: compare the `from` tags, then the `to` tags.
`Tag__compare` (modelled from the spec: total order by `id` ascending) reduces
to `Unsigned__compare` on the endpoint ids. -/
def Arc__compare (arc1 arc2 : Arc) : Int :=
  let result := Unsigned__compare arc1.from_tag arc2.from_tag
  if result = 0 then Unsigned__compare arc1.to_tag arc2.to_tag else result

/-- `Arc__equal(arc1, arc2)`: true iff `Arc__compare` returns `0`. -/
def Arc__equal (arc1 arc2 : Arc) : Bool := Arc__compare arc1 arc2 == 0

/-- `Arc__hash(arc)`: the sum of the two endpoint tag hashes.  `Tag__hash` is
modelled from the spec ("equal and hash: based on the canonical endpoint-id
pair", §4.3) as `Unsigned__hash` of the id. -/
def Arc__hash (arc : Arc) : Nat := Unsigned__hash arc.from_tag + Unsigned__hash arc.to_tag

/-- `Arc__update(arc, from_twist, distance, to_twist, goodness)`: overwrite the
measurement fields in place.  The C code asserts `from_tag->id < to_tag->id`;
an assertion failure is modelled as `none`. -/
def Arc__update (arc : Arc) (from_twist distance to_twist goodness : Q) : Option Arc :=
  if arc.from_tag < arc.to_tag then
    some { arc with from_twist := from_twist, distance := distance
                    goodness := goodness, to_twist := to_twist }
  else none

/-- The `Map` (fusion engine) state, fields as in `Map__Struct`.

The C heap of `Arc` objects is embedded as the arena `arcs` (an `Arc`
reference is an index into it; indices are stable because the arena only
grows).  `all_arcs`, `arcs_table` and `pending_arcs` are the corresponding
lists of references.  The C `tags_table` maps an id to its `Tag`; since
`Map__tag_lookup` inserts into `tags_table` and appends to `all_tags`
together, the single list `all_tags` (holding the tags themselves) serves as
both.  The announce plumbing and `temporary_arc` (a lookup key buffer) have
no observable state and are dropped. -/
structure Map where
  all_arcs : List Nat
  all_tags : List Tag
  arcs : List Arc
  arcs_table : List Nat
  is_changed : Bool
  pending_arcs : List Nat
  tag_heights : List Tag_Height
  visit : Nat
  deriving DecidableEq, Repr

/-- `Map__new()`: an empty initialized engine. -/
def Map__new : Map :=
  { all_arcs := [], all_tags := [], arcs := [], arcs_table := []
    is_changed := false, pending_arcs := [], tag_heights := [], visit := 0 }

/-- `Table__lookup` on `tags_table`: the tag with the given id, if present. -/
def findTag (tags : List Tag) (id : Nat) : Option Tag :=
  tags.find? (fun t => t.id == id)

/-- Pointer write to the tag with the given id (ids are unique in every
reachable engine state, so this models the C in-place field update). -/
def updateTag (tags : List Tag) (id : Nat) (f : Tag → Tag) : List Tag :=
  tags.map (fun t => if t.id = id then f t else t)

/-- Dereference an arc index in the arena. -/
def arcAt (arcs : List Arc) (i : Nat) : Arc := arcs.getD i arcDummy

/-- Pointer write to the arc at index `i` of the arena. -/
def setArc (arcs : List Arc) (i : Nat) (a : Arc) : List Arc := arcs.set i a

/-- `Map__distance_per_pixel(map, id)`: linear scan of the height table,
first containing range wins, `0` when none contains `id`. -/
def Map__distance_per_pixel (m : Map) (id : Nat) : Q :=
  match m.tag_heights.find? (fun th => th.first_id ≤ id && id ≤ th.last_id) with
  | some th => th.distance_per_pixel
  | none => qof 0

/-- The `z` height resolved from the height table, like
`Map__distance_per_pixel` (modelled from the spec §3: "`distance_per_pixel`,
`z`: resolved from the HeightTable at creation"). -/
def Map__height_z (m : Map) (id : Nat) : Q :=
  match m.tag_heights.find? (fun th => th.first_id ≤ id && id ≤ th.last_id) with
  | some th => th.z
  | none => qof 0

/-- `Tag__create(id, map)`.  Modelled from the spec: `Tag.c` is not among the
given sources.  Spec §3: a marker is "created lazily on first reference by
id", with `distance_per_pixel, z` "resolved from the HeightTable at creation",
empty incident-edge list and zeroed scratch; the pose starts at the origin. -/
def Tag__create (id : Nat) (m : Map) : Tag :=
  { id := id, x := qof 0, y := qof 0, twist := qof 0
    distance_per_pixel := Map__distance_per_pixel m id
    z := Map__height_z m id, arcs := [], hop_count := 0, visit := 0 }

/-- `Map__tag_lookup(map, tag_id)`: return the existing tag with this id, or
create one, register it and mark the map changed.  The returned tag reference
is the id itself. -/
def Map__tag_lookup (m : Map) (tag_id : Nat) : Map × Nat :=
  match findTag m.all_tags tag_id with
  | some _ => (m, tag_id)
  | none =>
      let tag := Tag__create tag_id m
      ({ m with all_tags := m.all_tags ++ [tag], is_changed := true }, tag_id)

/-- `Tag__arc_append(tag, arc)`.  Modelled from the spec (§4.2
"`attach_edge(obs)`: add `obs` to `incident_edges`, reject duplicates"):
`Tag.c` is not among the given sources. -/
def Tag__arc_append (m : Map) (tag_id : Nat) (arc_index : Nat) : Map :=
  { m with all_tags := updateTag m.all_tags tag_id (fun t =>
      if arc_index ∈ t.arcs then t else { t with arcs := t.arcs ++ [arc_index] }) }

/-- `Map__arc_append(map, arc)`: append to `all_arcs` and set `is_changed`. -/
def Map__arc_append (m : Map) (arc_index : Nat) : Map :=
  { m with all_arcs := m.all_arcs ++ [arc_index], is_changed := true }

/-- `Arc__create(from_tag, from_twist, distance, to_tag, to_twist, goodness)`:
canonicalize (swap endpoints *and* twists when `from_tag->id > to_tag->id`),
allocate the arc, and append it to both endpoints' incident lists and to the
map's `all_arcs` (which sets `is_changed`).  Returns the new arc's index. -/
def Arc__create (m : Map) (from_tag : Nat) (from_twist : Q) (distance : Q)
    (to_tag : Nat) (to_twist : Q) (goodness : Q) : Map × Nat :=
  let p : Nat × Nat × Q × Q :=
    if from_tag > to_tag then (to_tag, from_tag, to_twist, from_twist)
    else (from_tag, to_tag, from_twist, to_twist)
  let arc : Arc :=
    { Arc__new with distance := distance, from_tag := p.1, from_twist := p.2.2.1
                    goodness := goodness, to_tag := p.2.1, to_twist := p.2.2.2 }
  let idx := m.arcs.length
  let m1 := { m with arcs := m.arcs ++ [arc] }
  let m2 := Tag__arc_append m1 p.1 idx
  let m3 := Tag__arc_append m2 p.2.1 idx
  (Map__arc_append m3 idx, idx)

/-- `Table__lookup` on `arcs_table` with key equality `Arc__equal`: the first
registered arc whose canonical endpoint pair is `(a, b)`. -/
def tableFind (m : Map) (a b : Nat) : Option Nat :=
  m.arcs_table.find? (fun i => (arcAt m.arcs i).from_tag == a && (arcAt m.arcs i).to_tag == b)

/-- The canonical (sorted) form of an unordered id pair, as `Map__arc_lookup`
computes it ("Make sure that `from_tag` has the lower id"). -/
def canonPair (x y : Nat) : Nat × Nat := if x > y then (y, x) else (x, y)

/-- `Map__arc_lookup(map, from_tag, to_tag)`: canonicalize the pair, return
the arc registered in `arcs_table` if it exists, otherwise create one with
sentinel goodness and register it. -/
def Map__arc_lookup (m : Map) (from_tag to_tag : Nat) : Map × Nat :=
  let p : Nat × Nat := canonPair from_tag to_tag
  match tableFind m p.1 p.2 with
  | some i => (m, i)
  | none =>
      let (m1, idx) := Arc__create m p.1 (qof 0) (qof 0) p.2 (qof 0) sentinelGoodness
      ({ m1 with arcs_table := m1.arcs_table ++ [idx] }, idx)

/-- A `Camera_Tag`: a per-frame detection carrying its tag reference (the id)
and the pixel center and twist. -/
structure Camera_Tag where
  tag : Nat
  twist : Q
  x : Q
  y : Q
  deriving DecidableEq, Repr

/-- A `CV_Image`: only its pixel width and height are consumed. -/
structure CV_Image where
  width : Int
  height : Int
  deriving DecidableEq, Repr

/-- The candidate goodness `|ρ_from − ρ_to|` computed by `Map__arc_update`
from the camera data alone (it does not depend on the engine state; the
polar distances are recomputed inside `Map__arc_update` itself for the
measurement, exactly as the C code computes them once for both uses). -/
def candidateGoodness (ops : DoubleOps) (image : CV_Image) (camera_from camera_to : Camera_Tag) : Q :=
  let width : Q := qof image.width
  let height : Q := qof image.height
  let half_width := qdiv width (qof 2)
  let half_height := qdiv height (qof 2)
  let camera_from_dx := qsub camera_from.x half_width
  let camera_from_dy := qsub camera_from.y half_height
  let camera_from_polar_distance := ops.square_root
    (qadd (qmul camera_from_dx camera_from_dx) (qmul camera_from_dy camera_from_dy))
  let camera_to_dx := qsub camera_to.x half_width
  let camera_to_dy := qsub camera_to.y half_height
  let camera_to_polar_distance := ops.square_root
    (qadd (qmul camera_to_dx camera_to_dx) (qmul camera_to_dy camera_to_dy))
  Double__absolute (qsub camera_from_polar_distance camera_to_polar_distance)

/-- `Map__arc_update(map, camera_from, camera_to, image)`: look up (or create)
the arc for the pair; if the candidate goodness `|ρ_from − ρ_to|` is strictly
smaller than the stored goodness, recompute the relative measurement and
overwrite the arc, returning `1`, else return `0`.  `none` models a crash
(a camera tag whose marker is not in the engine, or the `Arc__update`
assertion).  Note the update path does not touch `is_changed`; only the
creation path (via `Map__arc_append` / `Map__tag_lookup`) sets it. -/
def Map__arc_update (ops : DoubleOps) (m : Map)
    (camera_from camera_to : Camera_Tag) (image : CV_Image) : Option (Map × Nat) :=
  let width : Q := qof image.width
  let height : Q := qof image.height
  let half_width := qdiv width (qof 2)
  let half_height := qdiv height (qof 2)
  match findTag m.all_tags camera_from.tag, findTag m.all_tags camera_to.tag with
  | some _, some _ =>
    let r := Map__arc_lookup m camera_from.tag camera_to.tag
    let m1 := r.1
    let arc := arcAt m1.arcs r.2
    let camera_from_dx := qsub camera_from.x half_width
    let camera_from_dy := qsub camera_from.y half_height
    let camera_from_polar_distance := ops.square_root
      (qadd (qmul camera_from_dx camera_from_dx) (qmul camera_from_dy camera_from_dy))
    let camera_from_polar_angle := ops.arc_tangent2 camera_from_dy camera_from_dx
    let camera_to_dx := qsub camera_to.x half_width
    let camera_to_dy := qsub camera_to.y half_height
    let camera_to_polar_distance := ops.square_root
      (qadd (qmul camera_to_dx camera_to_dx) (qmul camera_to_dy camera_to_dy))
    let camera_to_polar_angle := ops.arc_tangent2 camera_to_dy camera_to_dx
    let goodness := candidateGoodness ops image camera_from camera_to
    if qlt goodness arc.goodness then
      let from_distance_per_pixel := ((findTag m1.all_tags camera_from.tag).getD tagDummy).distance_per_pixel
      let to_distance_per_pixel := ((findTag m1.all_tags camera_to.tag).getD tagDummy).distance_per_pixel
      let from_floor_x := qmul (qmul from_distance_per_pixel camera_from_polar_distance) (ops.cosine camera_from_polar_angle)
      let from_floor_y := qmul (qmul from_distance_per_pixel camera_from_polar_distance) (ops.sine camera_from_polar_angle)
      let to_floor_x := qmul (qmul to_distance_per_pixel camera_to_polar_distance) (ops.cosine camera_to_polar_angle)
      let to_floor_y := qmul (qmul to_distance_per_pixel camera_to_polar_distance) (ops.sine camera_to_polar_angle)
      let floor_dx := qsub from_floor_x to_floor_x
      let floor_dy := qsub from_floor_y to_floor_y
      let floor_distance := ops.square_root (qadd (qmul floor_dx floor_dx) (qmul floor_dy floor_dy))
      let camera_dx := qsub camera_to.x camera_from.x
      let camera_dy := qsub camera_to.y camera_from.y
      let arc_angle := ops.arc_tangent2 camera_dy camera_dx
      let from_twist := ops.angle_normalize (qsub camera_from.twist arc_angle)
      let to_twist := ops.angle_normalize (qsub (qadd camera_to.twist piQ) arc_angle)
      match Arc__update arc from_twist floor_distance to_twist goodness with
      | some arc1 => some ({ m1 with arcs := setArc m1.arcs r.2 arc1 }, 1)
      | none => none
    else
      some (m1, 0)
  | _, _ => none

/-- `Tag__compare(tag1, tag2)`.  Modelled from the spec (§4.2 "compare(other):
total order by `id` ascending"): `Tag.c` is not among the given sources. -/
def Tag__compare (t1 t2 : Tag) : Int := Unsigned__compare t1.id t2.id

/-- Insert into a sorted list (the insertion step of `List__sort`'s model). -/
def insertBy {α : Type} (le : α → α → Bool) (x : α) : List α → List α
  | [] => [x]
  | y :: ys => if le x y then x :: y :: ys else y :: insertBy le x ys

/-- Model of `List__sort`: insertion sort, ascending for the comparator
(the container library is out of scope; any comparator-consistent sort
realizes it). -/
def sortBy {α : Type} (le : α → α → Bool) : List α → List α
  | [] => []
  | x :: xs => insertBy le x (sortBy le xs)

/-- The minimum of the two endpoint `hop_count`s of an arc (the tie-break
quantity of `Arc__distance_compare`). -/
def lowestHopCount (tags : List Tag) (arc : Arc) : Nat :=
  Unsigned__minimum ((findTag tags arc.from_tag).getD tagDummy).hop_count
    ((findTag tags arc.to_tag).getD tagDummy).hop_count

/-- `Arc__distance_compare(arc1, arc2)`: descending by distance, ties broken
descending by the minimum endpoint `hop_count`.  The arena embedding passes
the tag list and arc arena to resolve the references. -/
def Arc__distance_compare (tags : List Tag) (arcs : List Arc) (i j : Nat) : Int :=
  let arc1 := arcAt arcs i
  let arc2 := arcAt arcs j
  let result := - Double__compare arc1.distance arc2.distance
  if result = 0 then - Unsigned__compare (lowestHopCount tags arc1) (lowestHopCount tags arc2)
  else result

/-- Boolean `≤` for sorting `pending_arcs` with `Arc__distance_compare`. -/
def distanceLe (tags : List Tag) (arcs : List Arc) (i j : Nat) : Bool :=
  Arc__distance_compare tags arcs i j ≤ 0

/-- Boolean `≤` for sorting tags with `Tag__compare`. -/
def tagLe (t1 t2 : Tag) : Bool := Tag__compare t1 t2 ≤ 0

/-- `Tag__update_via_arc(tag, arc)`.  Modelled from the spec (§4.6, pose
composition along a tree edge): `Tag.c` is not among the given sources.
`child_id` is the endpoint being assigned; the parent is the other endpoint,
whose pose is already set.  If the parent is the canonical `from`:
bearing `= P.twist − E.from_twist`, child twist
`= normalize(P.twist − E.from_twist + E.to_twist + π)`; if the parent is the
canonical `to`: bearing `= P.twist − E.to_twist + π`, child twist
`= normalize(P.twist − E.to_twist − E.from_twist)`; then
`C.x = P.x + E.distance·cos(bearing)`, `C.y = P.y + E.distance·sin(bearing)`. -/
def Tag__update_via_arc (ops : DoubleOps) (tags : List Tag) (arcs : List Arc)
    (i : Nat) (child_id : Nat) : List Tag :=
  let arc := arcAt arcs i
  if child_id = arc.from_tag then
    let parent := (findTag tags arc.to_tag).getD tagDummy
    let bearing := qadd (qsub parent.twist arc.to_twist) piQ
    let child_twist := ops.angle_normalize (qsub (qsub parent.twist arc.to_twist) arc.from_twist)
    updateTag tags child_id (fun c =>
      { c with x := qadd parent.x (qmul arc.distance (ops.cosine bearing))
               y := qadd parent.y (qmul arc.distance (ops.sine bearing))
               twist := child_twist })
  else
    let parent := (findTag tags arc.from_tag).getD tagDummy
    let bearing := qsub parent.twist arc.from_twist
    let child_twist := ops.angle_normalize (qadd (qadd (qsub parent.twist arc.from_twist) arc.to_twist) piQ)
    updateTag tags child_id (fun c =>
      { c with x := qadd parent.x (qmul arc.distance (ops.cosine bearing))
               y := qadd parent.y (qmul arc.distance (ops.sine bearing))
               twist := child_twist })

/-- The number of arcs of the arena not yet stamped with the current
generation (the termination measure of the propagation loop). -/
def unvisitedCount (arcs : List Arc) (visit : Nat) : Nat :=
  (arcs.filter (fun a => a.visit != visit)).length

theorem unvisitedCount_set_lt {visit : Nat} {arcs : List Arc} {i : Nat} {arc a : Arc}
    (h : arcs[i]? = some arc) (hv : arc.visit ≠ visit) (ha : a.visit = visit) :
    unvisitedCount (arcs.set i a) visit < unvisitedCount arcs visit := by
  induction arcs generalizing i with
  | nil => simp at h
  | cons x xs ih =>
    cases i with
    | zero =>
      simp at h
      subst h
      have hx : (x.visit != visit) = true := by simp [hv]
      have hva : (a.visit != visit) = false := by simp [ha]
      simp [unvisitedCount, List.filter_cons, hx, hva]
    | succ n =>
      simp at h
      have hlt := ih h
      simp only [unvisitedCount, List.set_cons_succ, List.filter_cons] at hlt ⊢
      cases hx : (x.visit != visit) <;> simp [hx] <;> omega

/-- The total incident-edge count over all tags.  The propagation loop never
modifies any tag's incident list, so this bounds every frontier extension;
it is the coefficient of the explicit iteration bound below. -/
def sumIncidence (tags : List Tag) : Nat := (tags.map (fun t => t.arcs.length)).sum

/-- An upper bound on the number of loop iterations `propagate` can still
perform: each iteration pops one pending arc, and only an unvisited arc can
extend the frontier (by at most `sumIncidence` entries). -/
def propagateMeasure (visit : Nat) (tags : List Tag) (arcs : List Arc)
    (pending : List Nat) : Nat :=
  pending.length + unvisitedCount arcs visit * (sumIncidence tags + 1)

/-- The body of the spanning-tree growth loop of `Map__update` (`Map.c`
lines 573–629), with an explicit fuel so that recursion is structural and
every concrete run kernel-computes.  `pending` is `pending_arcs`; the
shortest arc is popped off the end.  `none` models a crash (a dangling arc
reference, an endpoint tag missing from the engine, or the `assert` in the
tree-growth branch firing with both endpoints new) — or exhausted fuel,
which `propagateFuel_isSome` below proves never happens for the fuel
`propagate` supplies. -/
def propagateFuel (ops : DoubleOps) (visit : Nat) : Nat → List Tag → List Arc →
    List Nat → Option (List Tag × List Arc)
  | 0, _, _, _ => none
  | Nat.succ fuel, tags, arcs, pending =>
    match pending.getLast? with
    | none => some (tags, arcs)
    | some i =>
      let rest := pending.dropLast
      match arcs[i]? with
      | none => none
      | some arc =>
        if arc.visit = visit then
          propagateFuel ops visit fuel tags arcs rest
        else
          let arcs1 := setArc arcs i { arc with visit := visit }
          match findTag tags arc.from_tag, findTag tags arc.to_tag with
          | some ft, some tt =>
            if ft.visit ≠ visit then
              if tt.visit ≠ visit then
                none
              else
                let tags1 := updateTag tags arc.from_tag (fun t => { t with hop_count := tt.hop_count + 1 })
                let pending1 := rest ++ ft.arcs
                let tags2 := updateTag tags1 arc.from_tag (fun t => { t with visit := visit })
                let tags3 := Tag__update_via_arc ops tags2 arcs1 i arc.from_tag
                let arcs2 := setArc arcs1 i { arc with visit := visit, in_tree := true }
                propagateFuel ops visit fuel tags3 arcs2 (sortBy (distanceLe tags3 arcs2) pending1)
            else
              if tt.visit ≠ visit then
                let tags1 := updateTag tags arc.to_tag (fun t => { t with hop_count := ft.hop_count + 1 })
                let pending1 := rest ++ tt.arcs
                let tags2 := updateTag tags1 arc.to_tag (fun t => { t with visit := visit })
                let tags3 := Tag__update_via_arc ops tags2 arcs1 i arc.to_tag
                let arcs2 := setArc arcs1 i { arc with visit := visit, in_tree := true }
                propagateFuel ops visit fuel tags3 arcs2 (sortBy (distanceLe tags3 arcs2) pending1)
              else
                let arcs2 := setArc arcs1 i { arc with visit := visit, in_tree := false }
                propagateFuel ops visit fuel tags arcs2 rest
          | _, _ => none

/-- The propagation loop, with the proven-sufficient fuel. -/
def propagate (ops : DoubleOps) (visit : Nat) (tags : List Tag) (arcs : List Arc)
    (pending : List Nat) : Option (List Tag × List Arc) :=
  propagateFuel ops visit (propagateMeasure visit tags arcs pending + 1) tags arcs pending

/-- `Map__update(map)` (`Map.c` lines 541–634): when `is_changed`, bump the
generation counter, sort the tags by id, force the lowest-id tag to be the
origin (stamping only its `visit` and `hop_count` — the C code assigns no
pose here), seed `pending_arcs` with the origin's incident arcs, sort them
longest-first, run the spanning-tree loop, and clear `is_changed`.  `none`
models a crash (`List__fetch` on an empty tag list, or a crash inside the
loop). -/
def Map__update (ops : DoubleOps) (m : Map) : Option Map :=
  if m.is_changed then
    let visit := m.visit + 1
    let all_tags := sortBy tagLe m.all_tags
    match all_tags with
    | [] => none
    | origin_tag :: _ =>
      let tags1 := updateTag all_tags origin_tag.id
        (fun t => { t with visit := visit, hop_count := 0 })
      let pending := m.pending_arcs ++ origin_tag.arcs
      let pending1 := sortBy (distanceLe tags1 m.arcs) pending
      match propagate ops visit tags1 m.arcs pending1 with
      | none => none
      | some (tags2, arcs2) =>
          some { m with all_tags := tags2, arcs := arcs2, pending_arcs := []
                        is_changed := false, visit := visit }
  else some m

/-- `Map__sort(map)`: sort tags by `Tag__compare` and arc references by
`Arc__compare` on the referenced arcs. -/
def Map__sort (m : Map) : Map :=
  { m with all_tags := sortBy tagLe m.all_tags
           all_arcs := sortBy (fun i j => Arc__compare (arcAt m.arcs i) (arcAt m.arcs j) ≤ 0) m.all_arcs }

/-- The element-by-element comparison loops of `Map__compare`: the first
nonzero comparison (over the common prefix of the two lists; the C code only
runs this when the sizes agree). -/
def listCompareFirst {α β : Type} (cmp : α → β → Int) : List α → List β → Int
  | a :: as, b :: bs =>
      let r := cmp a b
      if r = 0 then listCompareFirst cmp as bs else r
  | _, _ => 0

/-- The arcs of a map in `all_arcs` order (dereferencing the arena, as the
C `List__fetch` calls do). -/
def fetchedArcs (m : Map) : List Arc := m.all_arcs.map (fun i => arcAt m.arcs i)

/-- `Map__compare(map1, map2)` (`Map.c` lines 207–246), translated exactly:
the tag-list comparison result is computed and then unconditionally
overwritten by the arc-size comparison (the C code lacks an `if (result == 0)`
guard between the two sections). -/
def Map__compare (map1 map2 : Map) : Int :=
  let result := Unsigned__compare map1.all_tags.length map2.all_tags.length
  let result := if result = 0 then listCompareFirst Tag__compare map1.all_tags map2.all_tags
    else result
  let result2 := Unsigned__compare map1.all_arcs.length map2.all_arcs.length
  let result2 := if result2 = 0 then listCompareFirst Arc__compare (fetchedArcs map1) (fetchedArcs map2)
    else result2
  result2

/-- The attribute values of one `<Tag .../>` element, already parsed (XML
mechanics are out of scope, §1). -/
structure TagRecord where
  id : Nat
  x : Q
  y : Q
  twist_degrees : Q
  deriving DecidableEq, Repr

/-- `Tag__read(in_file, map)`.  Modelled from the spec (§6: markers are
stored with id, position, twist in degrees; `Tag.c` is not among the given
sources): look the tag up (creating it on first reference) and load the
persisted pose, converting the twist to radians. -/
def Tag__read (m : Map) (r : TagRecord) : Map × Nat :=
  let m1 := (Map__tag_lookup m r.id).1
  let radians := qmul r.twist_degrees (qdiv piQ (qof 180))
  let loaded := updateTag m1.all_tags r.id
    (fun t => { t with x := r.x, y := r.y, twist := radians })
  ({ m1 with all_tags := loaded }, r.id)

/-- The attribute values of one `<Arc .../>` element, already parsed. -/
structure ArcRecord where
  from_tag_id : Nat
  from_twist_degrees : Q
  distance : Q
  to_tag_id : Nat
  to_twist_degrees : Q
  goodness : Q
  in_tree : Bool
  deriving DecidableEq, Repr

/-- `Arc__read(in_file, map)` (`Arc.c` lines 148–175): convert the twists
from degrees to radians, look both tags up (creating them on first
reference), call `Arc__create`, and load the persisted `in_tree` flag.
Note it neither consults nor populates `arcs_table`. -/
def Arc__read (m : Map) (r : ArcRecord) : Map × Nat :=
  let radians_to_degrees := qdiv piQ (qof 180)
  let from_twist := qmul r.from_twist_degrees radians_to_degrees
  let to_twist := qmul r.to_twist_degrees radians_to_degrees
  let m1 := (Map__tag_lookup m r.from_tag_id).1
  let m2 := (Map__tag_lookup m1 r.to_tag_id).1
  let c := Arc__create m2 r.from_tag_id from_twist r.distance r.to_tag_id to_twist r.goodness
  ({ c.1 with arcs := setArc c.1.arcs c.2 { arcAt c.1.arcs c.2 with in_tree := r.in_tree } }, c.2)

/-- One engine operation: an ingest-path call (`Map__tag_lookup` or
`Map__arc_update`), a persistence-load element (`Tag__read` or `Arc__read`),
or a pose-propagation pass (`Map__update`). -/
inductive Op where
  | tag_lookup (id : Nat)
  | arc_update (camera_from camera_to : Camera_Tag) (image : CV_Image)
  | tag_read (r : TagRecord)
  | arc_read (r : ArcRecord)
  | update
  deriving DecidableEq, Repr

/-- Apply one operation to the engine. -/
def applyOp (ops : DoubleOps) (m : Map) : Op → Option Map
  | Op.tag_lookup id => some (Map__tag_lookup m id).1
  | Op.arc_update camera_from camera_to image =>
      match Map__arc_update ops m camera_from camera_to image with
      | some r => some r.1
      | none => none
  | Op.tag_read r => some (Tag__read m r).1
  | Op.arc_read r => some (Arc__read m r).1
  | Op.update => Map__update ops m

/-- Run a sequence of engine operations. -/
def runOps (ops : DoubleOps) (m : Map) : List Op → Option Map
  | [] => some m
  | op :: rest =>
      match applyOp ops m op with
      | some m1 => runOps ops m1 rest
      | none => none

/-! ## Helper lemmas about the embedding's containers -/

theorem insertBy_perm {α : Type} (le : α → α → Bool) (x : α) (l : List α) :
    List.Perm (insertBy le x l) (x :: l) := by
  induction l with
  | nil => simp [insertBy]
  | cons y ys ih =>
    simp only [insertBy]
    split
    · exact List.Perm.refl _
    · exact List.Perm.trans (List.Perm.cons y ih) (List.Perm.swap x y ys)

theorem sortBy_perm {α : Type} (le : α → α → Bool) (l : List α) :
    List.Perm (sortBy le l) l := by
  induction l with
  | nil => exact List.Perm.refl _
  | cons x xs ih =>
    exact List.Perm.trans (insertBy_perm le x (sortBy le xs)) (List.Perm.cons x ih)

theorem mem_sortBy {α : Type} {le : α → α → Bool} {l : List α} {a : α} :
    a ∈ sortBy le l ↔ a ∈ l := (sortBy_perm le l).mem_iff

theorem length_sortBy {α : Type} (le : α → α → Bool) (l : List α) :
    (sortBy le l).length = l.length := (sortBy_perm le l).length_eq

theorem insertBy_pairwise {α : Type} {le : α → α → Bool}
    (htot : ∀ a b : α, le a b = true ∨ le b a = true)
    (htr : ∀ a b c : α, le a b = true → le b c = true → le a c = true)
    {l : List α} (x : α) (h : l.Pairwise (fun a b => le a b = true)) :
    (insertBy le x l).Pairwise (fun a b => le a b = true) := by
  induction l with
  | nil => simp [insertBy]
  | cons y ys ih =>
    simp only [insertBy]
    rcases List.pairwise_cons.mp h with ⟨hy, hys⟩
    split <;> rename_i hxy
    · refine List.pairwise_cons.mpr ⟨?_, h⟩
      intro b hb
      rcases List.mem_cons.mp hb with rfl | hb
      · exact hxy
      · exact htr _ _ _ hxy (hy _ hb)
    · refine List.pairwise_cons.mpr ⟨?_, ih hys⟩
      intro b hb
      rcases List.mem_cons.mp ((insertBy_perm le x ys).mem_iff.mp hb) with rfl | hb
      · rcases htot b y with hxy2 | hyx
        · exact absurd hxy2 hxy
        · exact hyx
      · exact hy _ hb

theorem sortBy_pairwise {α : Type} {le : α → α → Bool}
    (htot : ∀ a b : α, le a b = true ∨ le b a = true)
    (htr : ∀ a b c : α, le a b = true → le b c = true → le a c = true)
    (l : List α) : (sortBy le l).Pairwise (fun a b => le a b = true) := by
  induction l with
  | nil => simp [sortBy]
  | cons x xs ih => exact insertBy_pairwise htot htr x ih

theorem mem_dropLast {α : Type} {l : List α} {a : α} (h : a ∈ l.dropLast) : a ∈ l :=
  List.dropLast_subset l h

theorem tagLe_iff (t u : Tag) : tagLe t u = true ↔ t.id ≤ u.id := by
  simp only [tagLe, Tag__compare, Unsigned__compare]
  split <;> rename_i h1
  · simp; omega
  · split <;> rename_i h2
    · simp; omega
    · simp; omega

theorem tagLe_total (t u : Tag) : tagLe t u = true ∨ tagLe u t = true := by
  rw [tagLe_iff, tagLe_iff]; omega

theorem tagLe_trans (t u v : Tag) (h1 : tagLe t u = true) (h2 : tagLe u v = true) :
    tagLe t v = true := by
  rw [tagLe_iff] at *; omega

/-! Facts about `findTag` and `updateTag`. -/

theorem findTag_some {tags : List Tag} {x : Nat} {t : Tag} (h : findTag tags x = some t) :
    t ∈ tags ∧ t.id = x := by
  refine ⟨List.mem_of_find?_eq_some h, ?_⟩
  have := List.find?_some h
  simpa using this

theorem findTag_isSome_of_exists {tags : List Tag} {x : Nat}
    (h : ∃ t ∈ tags, t.id = x) : ∃ t, findTag tags x = some t ∧ t ∈ tags ∧ t.id = x := by
  rcases h with ⟨t, ht, hid⟩
  have : (findTag tags x).isSome := by
    unfold findTag
    rw [List.find?_isSome]
    exact ⟨t, ht, by simpa using hid⟩
  rcases Option.isSome_iff_exists.mp this with ⟨u, hu⟩
  exact ⟨u, hu, findTag_some hu⟩

/-- The tag ids of a map's tag list. -/
def tagIds (tags : List Tag) : List Nat := tags.map (fun t => t.id)

/-- Uniqueness of tag ids (an invariant of every reachable engine state). -/
def idsNodup (tags : List Tag) : Prop := (tagIds tags).Nodup

instance (tags : List Tag) : Decidable (idsNodup tags) := by
  unfold idsNodup; infer_instance

theorem eq_of_mem_of_id_eq {tags : List Tag} (hnod : idsNodup tags)
    {t u : Tag} (ht : t ∈ tags) (hu : u ∈ tags) (hid : t.id = u.id) : t = u := by
  induction tags with
  | nil => simp at ht
  | cons v vs ih =>
    have hsplit : ¬ v.id ∈ vs.map (fun t => t.id) ∧ (vs.map (fun t => t.id)).Nodup := by
      have := hnod
      unfold idsNodup tagIds at this
      exact List.nodup_cons.mp (by simpa using this)
    rcases List.mem_cons.mp ht with rfl | ht2 <;> rcases List.mem_cons.mp hu with rfl | hu2
    · rfl
    · exfalso
      apply hsplit.1
      rw [hid]
      exact List.mem_map_of_mem _ hu2
    · exfalso
      apply hsplit.1
      rw [← hid]
      exact List.mem_map_of_mem _ ht2
    · exact ih hsplit.2 ht2 hu2

theorem findTag_eq_of_nodup {tags : List Tag} (hnod : idsNodup tags)
    {t : Tag} (ht : t ∈ tags) {x : Nat} (hid : t.id = x) : findTag tags x = some t := by
  rcases findTag_isSome_of_exists ⟨t, ht, hid⟩ with ⟨u, hu, humem, huid⟩
  rw [hu, eq_of_mem_of_id_eq hnod humem ht (by omega)]

theorem mem_updateTag {tags : List Tag} {id : Nat} {f : Tag → Tag} {t : Tag} (h : t ∈ tags) :
    (if t.id = id then f t else t) ∈ updateTag tags id f := by
  unfold updateTag
  exact List.mem_map_of_mem _ h

theorem updateTag_mem {tags : List Tag} {id : Nat} {f : Tag → Tag} {u : Tag}
    (h : u ∈ updateTag tags id f) : ∃ t ∈ tags, u = if t.id = id then f t else t := by
  unfold updateTag at h
  rcases List.mem_map.mp h with ⟨t, ht, heq⟩
  exact ⟨t, ht, heq.symm⟩

theorem tagIds_updateTag (tags : List Tag) (id : Nat) (f : Tag → Tag)
    (hf : ∀ t, (f t).id = t.id) : tagIds (updateTag tags id f) = tagIds tags := by
  unfold tagIds updateTag
  rw [List.map_map]
  apply List.map_congr_left
  intro t _
  simp only [Function.comp]
  split <;> simp [hf]

theorem idsNodup_updateTag {tags : List Tag} {id : Nat} {f : Tag → Tag}
    (hf : ∀ t, (f t).id = t.id) (h : idsNodup tags) : idsNodup (updateTag tags id f) := by
  unfold idsNodup
  rw [tagIds_updateTag tags id f hf]
  exact h

theorem idsNodup_sortBy {le : Tag → Tag → Bool} {tags : List Tag} (h : idsNodup tags) :
    idsNodup (sortBy le tags) := by
  have hperm := (sortBy_perm le tags).map (fun t => t.id)
  unfold idsNodup tagIds at h ⊢
  exact hperm.nodup_iff.mpr h

/-! Facts about the arc arena. -/

theorem arcAt_append_length (l : List Arc) (a : Arc) : arcAt (l ++ [a]) l.length = a := by
  unfold arcAt
  rw [List.getD_eq_getElem?_getD, List.getElem?_append_right (Nat.le_refl _)]
  simp

theorem arcAt_append_lt {l : List Arc} {i : Nat} (h : i < l.length) (l2 : List Arc) :
    arcAt (l ++ l2) i = arcAt l i := by
  unfold arcAt
  rw [List.getD_eq_getElem?_getD, List.getD_eq_getElem?_getD, List.getElem?_append_left h]

theorem arcAt_set_self {l : List Arc} {i : Nat} (h : i < l.length) (a : Arc) :
    arcAt (l.set i a) i = a := by
  unfold arcAt
  rw [List.getD_eq_getElem?_getD, List.getElem?_set_self h]
  rfl

theorem arcAt_set_ne {l : List Arc} {i j : Nat} (h : i ≠ j) (a : Arc) :
    arcAt (l.set i a) j = arcAt l j := by
  unfold arcAt
  rw [List.getD_eq_getElem?_getD, List.getD_eq_getElem?_getD, List.getElem?_set_ne h]

theorem Unsigned__compare_self (a : Nat) : Unsigned__compare a a = 0 := by
  unfold Unsigned__compare
  simp

theorem Unsigned__compare_eq_zero {a b : Nat} (h : Unsigned__compare a b = 0) : a = b := by
  unfold Unsigned__compare at h
  split at h
  · omega
  · split at h <;> omega

theorem Arc__compare_eq_zero {a1 a2 : Arc} (hf : a1.from_tag = a2.from_tag)
    (ht : a1.to_tag = a2.to_tag) : Arc__compare a1 a2 = 0 := by
  unfold Arc__compare
  rw [hf, ht, Unsigned__compare_self, Unsigned__compare_self]
  simp

theorem listCompareFirst_eq_zero {α β : Type} {cmp : α → β → Int} :
    ∀ {l1 : List α} {l2 : List β}, (∀ p ∈ l1.zip l2, cmp p.1 p.2 = 0) →
      listCompareFirst cmp l1 l2 = 0
  | [], _, _ => rfl
  | _ :: _, [], _ => rfl
  | a :: as, b :: bs, h => by
    have hhead : cmp a b = 0 := h (a, b) (by simp)
    unfold listCompareFirst
    simp only [hhead, if_pos]
    exact listCompareFirst_eq_zero (fun p hp => h p (by simp [hp]))

/-- `Map__tag_lookup` never touches the arc arena, the arc lists or the
height table. -/
theorem Map__tag_lookup_arcs (m : Map) (id : Nat) :
    (Map__tag_lookup m id).1.arcs = m.arcs
    ∧ (Map__tag_lookup m id).1.arcs_table = m.arcs_table
    ∧ (Map__tag_lookup m id).1.all_arcs = m.all_arcs
    ∧ (Map__tag_lookup m id).1.pending_arcs = m.pending_arcs := by
  unfold Map__tag_lookup
  cases findTag m.all_tags id <;> exact ⟨rfl, rfl, rfl, rfl⟩

/-- What `Arc__create` builds when called with an already-canonical pair. -/
theorem Arc__create_canonical (m : Map) (ftag ttag : Nat) (ftw d ttw g : Q)
    (h : ¬ ftag > ttag) :
    (Arc__create m ftag ftw d ttag ttw g).1.arcs
      = m.arcs ++ [{ from_tag := ftag, to_tag := ttag, from_twist := ftw, to_twist := ttw
                     distance := d, goodness := g, in_tree := false, visit := 0 }]
    ∧ (Arc__create m ftag ftw d ttag ttw g).2 = m.arcs.length := by
  unfold Arc__create Tag__arc_append Map__arc_append
  simp only [if_neg h]
  exact ⟨rfl, trivial⟩

/-! ## Concrete example inputs (shared by witnesses and counterexamples) -/

/-- A 200×200 frame. -/
def exImage : CV_Image := ⟨200, 200⟩

/-- Marker 1 seen at the image center. -/
def exCameraFrom : Camera_Tag := ⟨1, qof 0, qof 100, qof 100⟩

/-- Marker 2 seen 10 px right of center (candidate goodness 100 under
`opsId`, whose square root is the identity). -/
def exCameraToFar : Camera_Tag := ⟨2, qof 0, qof 110, qof 100⟩

/-- Marker 2 seen 5 px right of center (candidate goodness 25 under
`opsId`: a strictly better measurement than `exCameraToFar`). -/
def exCameraToNear : Camera_Tag := ⟨2, qof 0, qof 105, qof 100⟩

/-- The engine after creating just marker 1. -/
def exMapTag1 : Map := (Map__tag_lookup Map__new 1).1

/-- The engine after creating just marker 2. -/
def exMapTag2 : Map := (Map__tag_lookup Map__new 2).1

/-! ## C5 — `Map__compare` comparison order -/

/-- C5, code bug: the claim (and `Map.c`'s own comment structure) says the
marker-list comparison decides `Map__compare` first, so two maps with
different marker lists must compare nonzero regardless of the edge lists.
The code drops the `if (result == 0)` guard between the two sections
(`Map.c` line 233 overwrites `result` unconditionally), so two engines
holding different single markers (ids 1 and 2) — whose `Tag__compare` is
nonzero — and no edges compare equal.  This evaluates the translated code at
that failing input. -/
theorem claim5_map_compare_drops_tag_result :
    Map__compare exMapTag1 exMapTag2 = 0
    ∧ exMapTag1.all_tags.length = exMapTag2.all_tags.length
    ∧ Tag__compare (exMapTag1.all_tags.getD 0 tagDummy) (exMapTag2.all_tags.getD 0 tagDummy) ≠ 0 := by
  decide

/-! ## C6 — the loader and canonicalization -/

/-- C6, counterexample: an `<Arc>` element with `From_Tag_Id = 2 >
To_Tag_Id = 1` and `From_Twist = 180`, `To_Twist = 0`.  The claim says the
converted `From_Twist` is stored into `from_twist` without the
endpoint-and-twist swap for every input including this one; in fact
`Arc__read` delegates to `Arc__create`, which swaps: the stored `from_twist`
is the converted `To_Twist` (`0`), not the converted `From_Twist` (`π`), and
the endpoints are re-canonicalized to `(1, 2)`. -/
theorem claim6_swap_counterexample :
    (arcAt (Arc__read Map__new ⟨2, qof 180, qof 7, 1, qof 0, qof 3, false⟩).1.arcs
        (Arc__read Map__new ⟨2, qof 180, qof 7, 1, qof 0, qof 3, false⟩).2).from_twist
      = qmul (qof 0) (qdiv piQ (qof 180))
    ∧ (arcAt (Arc__read Map__new ⟨2, qof 180, qof 7, 1, qof 0, qof 3, false⟩).1.arcs
        (Arc__read Map__new ⟨2, qof 180, qof 7, 1, qof 0, qof 3, false⟩).2).from_twist
      ≠ qmul (qof 180) (qdiv piQ (qof 180))
    ∧ (arcAt (Arc__read Map__new ⟨2, qof 180, qof 7, 1, qof 0, qof 3, false⟩).1.arcs
        (Arc__read Map__new ⟨2, qof 180, qof 7, 1, qof 0, qof 3, false⟩).2).from_tag = 1 := by
  decide

/-- C6, amended: for inputs satisfying the on-disk invariant
`From_Tag_Id < To_Tag_Id`, `Arc__read` stores the degree-to-radian-converted
`From_Twist` and `To_Twist` into the Observation unswapped (together with the
endpoints, distance, goodness and `in_tree` exactly as read); when
`From_Tag_Id > To_Tag_Id`, `Arc__create` applies the canonical
endpoint-and-twist swap (see the counterexample). -/
theorem claim6_read_canonical_no_swap (m : Map) (r : ArcRecord)
    (h : r.from_tag_id < r.to_tag_id) :
    arcAt (Arc__read m r).1.arcs (Arc__read m r).2 =
      { from_tag := r.from_tag_id, to_tag := r.to_tag_id
        from_twist := qmul r.from_twist_degrees (qdiv piQ (qof 180))
        to_twist := qmul r.to_twist_degrees (qdiv piQ (qof 180))
        distance := r.distance, goodness := r.goodness
        in_tree := r.in_tree, visit := 0 } := by
  have hng : ¬ r.from_tag_id > r.to_tag_id := by omega
  obtain ⟨hcarc, hcidx⟩ := Arc__create_canonical
    ((Map__tag_lookup (Map__tag_lookup m r.from_tag_id).1 r.to_tag_id).1)
    r.from_tag_id r.to_tag_id
    (qmul r.from_twist_degrees (qdiv piQ (qof 180)))
    r.distance
    (qmul r.to_twist_degrees (qdiv piQ (qof 180)))
    r.goodness hng
  simp only [Arc__read, setArc]
  rw [hcarc, hcidx, arcAt_append_length]
  have hlen : (Map__tag_lookup (Map__tag_lookup m r.from_tag_id).1 r.to_tag_id).1.arcs.length
      < ((Map__tag_lookup (Map__tag_lookup m r.from_tag_id).1 r.to_tag_id).1.arcs
          ++ [({ from_tag := r.from_tag_id, to_tag := r.to_tag_id
                 from_twist := qmul r.from_twist_degrees (qdiv piQ (qof 180))
                 to_twist := qmul r.to_twist_degrees (qdiv piQ (qof 180))
                 distance := r.distance, goodness := r.goodness
                 in_tree := false, visit := 0 } : Arc)]).length := by
    simp
  rw [arcAt_set_self hlen]

/-- C6 witness: the amended statement evaluated at a canonical record
(`From_Tag_Id = 1 < 2 = To_Tag_Id`, `From_Twist = 90`, `To_Twist = 45`). -/
theorem claim6_read_canonical_no_swap_witness :
    arcAt (Arc__read Map__new ⟨1, qof 90, qof 7, 2, qof 45, qof 3, true⟩).1.arcs
        (Arc__read Map__new ⟨1, qof 90, qof 7, 2, qof 45, qof 3, true⟩).2 =
      { from_tag := 1, to_tag := 2
        from_twist := qmul (qof 90) (qdiv piQ (qof 180))
        to_twist := qmul (qof 45) (qdiv piQ (qof 180))
        distance := qof 7, goodness := qof 3
        in_tree := true, visit := 0 } :=
  claim6_read_canonical_no_swap Map__new ⟨1, qof 90, qof 7, 2, qof 45, qof 3, true⟩ (by decide)

/-! ## C9 — idempotence of `Map__update` -/

/-- C9: whenever `Map__update` returns, the resulting engine has
`is_changed = false`, so a second `Map__update` with no intervening ingest or
load observes `is_changed` false and returns the state unchanged — a no-op on
every marker pose, every edge flag, and all engine state. -/
theorem claim9_update_idempotent (ops : DoubleOps) (m m' : Map)
    (h : Map__update ops m = some m') :
    m'.is_changed = false ∧ Map__update ops m' = some m' := by
  have hic : m'.is_changed = false := by
    unfold Map__update at h
    by_cases hc : m.is_changed
    · simp only [hc, if_true] at h
      cases hs : sortBy tagLe m.all_tags with
      | nil => rw [hs] at h; simp at h
      | cons origin rest =>
        rw [hs] at h
        simp only [] at h
        cases hp : propagate ops (m.visit + 1)
            (updateTag (origin :: rest) origin.id
              (fun t => { t with visit := m.visit + 1, hop_count := 0 }))
            m.arcs
            (sortBy
              (distanceLe
                (updateTag (origin :: rest) origin.id
                  (fun t => { t with visit := m.visit + 1, hop_count := 0 }))
                m.arcs)
              (m.pending_arcs ++ origin.arcs)) with
        | none => rw [hp] at h; simp at h
        | some pair =>
          rw [hp] at h
          cases h
          rfl
    · simp only [Bool.not_eq_true] at hc
      simp only [hc, Bool.false_eq_true, if_false, Option.some.injEq] at h
      rw [← h]
      exact hc
  refine ⟨hic, ?_⟩
  unfold Map__update
  simp [hic]

/-- C9 witness: a concrete engine (one loaded marker, dirty) run through
`Map__update`; the second call returns the result unchanged. -/
theorem claim9_update_idempotent_witness :
    ((Map__update opsId (Tag__read Map__new ⟨1, qof 5, qof 0, qof 0⟩).1).getD Map__new).is_changed = false
    ∧ Map__update opsId ((Map__update opsId (Tag__read Map__new ⟨1, qof 5, qof 0, qof 0⟩).1).getD Map__new)
      = some ((Map__update opsId (Tag__read Map__new ⟨1, qof 5, qof 0, qof 0⟩).1).getD Map__new) :=
  claim9_update_idempotent opsId (Tag__read Map__new ⟨1, qof 5, qof 0, qof 0⟩).1
    ((Map__update opsId (Tag__read Map__new ⟨1, qof 5, qof 0, qof 0⟩).1).getD Map__new)
    (by decide)

/-! ## C10 — arc identity is id-only -/

/-- C10: `Arc__compare`, `Arc__equal` and `Arc__hash` depend only on the two
endpoint ids: two Observations over the same (canonical) id pair compare
equal, are `Arc__equal`, and hash equal no matter how their `distance`,
`from_twist`, `to_twist`, `goodness`, `in_tree` or `visit` fields differ;
consequently `Map__compare` returns `0` on two maps whose tag lists agree and
whose edge lists pair up with equal endpoint ids, regardless of those
measured fields. -/
theorem claim10_arc_identity_id_only (a1 a2 : Arc) (m1 m2 : Map)
    (hf : a1.from_tag = a2.from_tag) (ht : a1.to_tag = a2.to_tag)
    (htags : m1.all_tags = m2.all_tags)
    (hlen : m1.all_arcs.length = m2.all_arcs.length)
    (hpairs : ∀ p ∈ (fetchedArcs m1).zip (fetchedArcs m2),
        p.1.from_tag = p.2.from_tag ∧ p.1.to_tag = p.2.to_tag) :
    Arc__compare a1 a2 = 0 ∧ Arc__equal a1 a2 = true ∧ Arc__hash a1 = Arc__hash a2
    ∧ Map__compare m1 m2 = 0 := by
  refine ⟨Arc__compare_eq_zero hf ht, ?_, ?_, ?_⟩
  · unfold Arc__equal
    rw [Arc__compare_eq_zero hf ht]
    rfl
  · unfold Arc__hash
    rw [hf, ht]
  · unfold Map__compare
    rw [hlen, Unsigned__compare_self]
    simp only [if_pos]
    exact listCompareFirst_eq_zero (fun p hp => Arc__compare_eq_zero (hpairs p hp).1 (hpairs p hp).2)

/-- C10 witness: two arcs over the pair `(1, 2)` differing in every measured
field, and two one-edge maps built from them. -/
theorem claim10_arc_identity_id_only_witness :
    Arc__compare ⟨1, 2, qof 0, qof 0, qof 5, qof 9, false, 0⟩ ⟨1, 2, piQ, qof 3, qof 8, qof 1, true, 4⟩ = 0
    ∧ Arc__equal ⟨1, 2, qof 0, qof 0, qof 5, qof 9, false, 0⟩ ⟨1, 2, piQ, qof 3, qof 8, qof 1, true, 4⟩ = true
    ∧ Arc__hash ⟨1, 2, qof 0, qof 0, qof 5, qof 9, false, 0⟩ = Arc__hash ⟨1, 2, piQ, qof 3, qof 8, qof 1, true, 4⟩
    ∧ Map__compare { Map__new with arcs := [⟨1, 2, qof 0, qof 0, qof 5, qof 9, false, 0⟩], all_arcs := [0] }
        { Map__new with arcs := [⟨1, 2, piQ, qof 3, qof 8, qof 1, true, 4⟩], all_arcs := [0] } = 0 :=
  claim10_arc_identity_id_only _ _ _ _ (by decide) (by decide) (by decide) (by decide) (by decide)

/-! ## C3 — the dirty flag on ingest -/

/-- When the canonical pair is already registered, `Map__arc_lookup` returns
the registered arc and changes nothing. -/
theorem Map__arc_lookup_found {m : Map} {x y i : Nat}
    (h : tableFind m (canonPair x y).1 (canonPair x y).2 = some i) :
    Map__arc_lookup m x y = (m, i) := by
  unfold Map__arc_lookup
  simp only [h]

/-- C3, counterexample: build the pair `(1, 2)` by ingesting a poor
measurement, run `Map__update` (clearing `is_changed`), then ingest a
strictly better measurement of the same pair.  `Map__arc_update` overwrites
the Observation and returns `1` — but `is_changed` stays `false`, where the
claim says it is set to `true` (so the next `Map__update` would *not* re-run
pose propagation). -/
theorem claim3_is_changed_counterexample :
    (((runOps opsId Map__new
          [Op.tag_lookup 1, Op.tag_lookup 2, Op.arc_update exCameraFrom exCameraToFar exImage]).bind
        (Map__update opsId)).bind
      (fun m2 => Map__arc_update opsId m2 exCameraFrom exCameraToNear exImage)).map
      (fun r => (r.2, r.1.is_changed, (arcAt r.1.arcs 0).goodness))
    = some (1, false, candidateGoodness opsId exImage exCameraFrom exCameraToNear) := by
  decide

/-- C3, amended: when `Map__arc_update` finds a strictly better goodness for
an existing (registered, canonical) pair, it overwrites the Observation via
`Arc__update` and returns `1` — but it leaves `is_changed` exactly as it was
(only arc/tag *creation* sets the flag, via `Map__arc_append` and
`Map__tag_lookup`); a subsequent `Map__update` therefore re-runs pose
propagation only if `is_changed` was already `true`. -/
theorem claim3_better_goodness_updates (ops : DoubleOps) (m : Map)
    (cf ct : Camera_Tag) (img : CV_Image) (i : Nat)
    (hfrom : (findTag m.all_tags cf.tag).isSome)
    (hto : (findTag m.all_tags ct.tag).isSome)
    (hfound : tableFind m (canonPair cf.tag ct.tag).1 (canonPair cf.tag ct.tag).2 = some i)
    (hi : i < m.arcs.length)
    (hcanon : (arcAt m.arcs i).from_tag < (arcAt m.arcs i).to_tag)
    (hlt : qlt (candidateGoodness ops img cf ct) ((arcAt m.arcs i).goodness)) :
    ∃ m1, Map__arc_update ops m cf ct img = some (m1, 1)
      ∧ m1.is_changed = m.is_changed
      ∧ m1.all_tags = m.all_tags ∧ m1.arcs_table = m.arcs_table
      ∧ m1.all_arcs = m.all_arcs ∧ m1.pending_arcs = m.pending_arcs
      ∧ (arcAt m1.arcs i).goodness = candidateGoodness ops img cf ct := by
  obtain ⟨ft, hft⟩ := Option.isSome_iff_exists.mp hfrom
  obtain ⟨tt, htt⟩ := Option.isSome_iff_exists.mp hto
  unfold Map__arc_update
  simp only [hft, htt, Map__arc_lookup_found hfound]
  rw [if_pos hlt]
  unfold Arc__update
  rw [if_pos hcanon]
  refine ⟨_, rfl, rfl, rfl, rfl, rfl, rfl, ?_⟩
  rw [setArc, arcAt_set_self hi]

/-- C3 witness: the amended statement at the counterexample's pre-state (pair
`(1, 2)` stored with goodness 100 under `opsId`, `is_changed` false after
`Map__update`, candidate goodness 25). -/
theorem claim3_better_goodness_updates_witness :
    (∃ m1, Map__arc_update opsId
        (((runOps opsId Map__new
            [Op.tag_lookup 1, Op.tag_lookup 2, Op.arc_update exCameraFrom exCameraToFar exImage]).bind
          (Map__update opsId)).getD Map__new)
        exCameraFrom exCameraToNear exImage = some (m1, 1)
      ∧ m1.is_changed = (((runOps opsId Map__new
            [Op.tag_lookup 1, Op.tag_lookup 2, Op.arc_update exCameraFrom exCameraToFar exImage]).bind
          (Map__update opsId)).getD Map__new).is_changed
      ∧ m1.all_tags = (((runOps opsId Map__new
            [Op.tag_lookup 1, Op.tag_lookup 2, Op.arc_update exCameraFrom exCameraToFar exImage]).bind
          (Map__update opsId)).getD Map__new).all_tags
      ∧ m1.arcs_table = (((runOps opsId Map__new
            [Op.tag_lookup 1, Op.tag_lookup 2, Op.arc_update exCameraFrom exCameraToFar exImage]).bind
          (Map__update opsId)).getD Map__new).arcs_table
      ∧ m1.all_arcs = (((runOps opsId Map__new
            [Op.tag_lookup 1, Op.tag_lookup 2, Op.arc_update exCameraFrom exCameraToFar exImage]).bind
          (Map__update opsId)).getD Map__new).all_arcs
      ∧ m1.pending_arcs = (((runOps opsId Map__new
            [Op.tag_lookup 1, Op.tag_lookup 2, Op.arc_update exCameraFrom exCameraToFar exImage]).bind
          (Map__update opsId)).getD Map__new).pending_arcs
      ∧ (arcAt m1.arcs 0).goodness = candidateGoodness opsId exImage exCameraFrom exCameraToNear) :=
  claim3_better_goodness_updates opsId _ exCameraFrom exCameraToNear exImage 0
    (by decide) (by decide) (by decide) (by decide) (by decide) (by decide)

/-! ## Characterizations of the ingest path -/

/-- The unordered id pair of an arc (its identity under the Edge Index). -/
def arcsPair (a : Arc) : Nat × Nat := (a.from_tag, a.to_tag)

theorem canonPair_le (x y : Nat) : (canonPair x y).1 ≤ (canonPair x y).2 := by
  unfold canonPair
  split <;> simp <;> omega

theorem canonPair_lt {x y : Nat} (h : x ≠ y) : (canonPair x y).1 < (canonPair x y).2 := by
  unfold canonPair
  split <;> simp <;> omega

/-- What `Arc__create` does to every field of the engine. -/
theorem Arc__create_shape (m : Map) (ftag : Nat) (ftw d : Q) (ttag : Nat) (ttw g : Q) :
    (Arc__create m ftag ftw d ttag ttw g).1.arcs
      = m.arcs ++ [if ftag > ttag
          then (⟨ttag, ftag, ttw, ftw, d, g, false, 0⟩ : Arc)
          else (⟨ftag, ttag, ftw, ttw, d, g, false, 0⟩ : Arc)]
    ∧ (Arc__create m ftag ftw d ttag ttw g).2 = m.arcs.length
    ∧ (Arc__create m ftag ftw d ttag ttw g).1.arcs_table = m.arcs_table
    ∧ (Arc__create m ftag ftw d ttag ttw g).1.all_arcs = m.all_arcs ++ [m.arcs.length]
    ∧ (Arc__create m ftag ftw d ttag ttw g).1.is_changed = true
    ∧ (Arc__create m ftag ftw d ttag ttw g).1.pending_arcs = m.pending_arcs
    ∧ (Arc__create m ftag ftw d ttag ttw g).1.tag_heights = m.tag_heights
    ∧ (Arc__create m ftag ftw d ttag ttw g).1.visit = m.visit
    ∧ tagIds (Arc__create m ftag ftw d ttag ttw g).1.all_tags = tagIds m.all_tags := by
  unfold Arc__create Tag__arc_append Map__arc_append
  split <;>
    exact ⟨rfl, rfl, rfl, rfl, rfl, rfl, rfl, rfl, by
      simp only []
      rw [tagIds_updateTag _ _ _ (fun t => by split <;> rfl),
        tagIds_updateTag _ _ _ (fun t => by split <;> rfl)]⟩

/-- What `Map__arc_lookup` does: either the canonical pair is registered and
nothing changes, or a sentinel arc is created and registered. -/
theorem Map__arc_lookup_shape (m : Map) (x y : Nat) {m0 : Map} {i : Nat}
    (h : Map__arc_lookup m x y = (m0, i)) :
    (tableFind m (canonPair x y).1 (canonPair x y).2 = some i ∧ m0 = m)
    ∨ (tableFind m (canonPair x y).1 (canonPair x y).2 = none
        ∧ i = m.arcs.length
        ∧ m0.arcs = m.arcs
            ++ [(⟨(canonPair x y).1, (canonPair x y).2, qof 0, qof 0, qof 0, sentinelGoodness, false, 0⟩ : Arc)]
        ∧ m0.arcs_table = m.arcs_table ++ [m.arcs.length]
        ∧ m0.all_arcs = m.all_arcs ++ [m.arcs.length]
        ∧ m0.is_changed = true
        ∧ m0.pending_arcs = m.pending_arcs
        ∧ m0.tag_heights = m.tag_heights
        ∧ m0.visit = m.visit
        ∧ tagIds m0.all_tags = tagIds m.all_tags) := by
  unfold Map__arc_lookup at h
  simp only [] at h
  cases htf : tableFind m (canonPair x y).1 (canonPair x y).2 with
  | some j =>
    rw [htf] at h
    cases h
    exact Or.inl ⟨rfl, rfl⟩
  | none =>
    rw [htf] at h
    obtain ⟨harcs, hidx, htable, hall, hic, hpend, hth, hv, hids⟩ :=
      Arc__create_shape m (canonPair x y).1 (qof 0) (qof 0) (canonPair x y).2 (qof 0) sentinelGoodness
    have hng : ¬ (canonPair x y).1 > (canonPair x y).2 := by
      have := canonPair_le x y
      omega
    rw [if_neg hng] at harcs
    cases h
    refine Or.inr ⟨rfl, hidx, harcs, ?_, hall, hic, hpend, hth, hv, hids⟩
    simp only [htable, hidx]

/-- What a successful `Map__arc_update` does, relative to the state `m0` and
arc index `i` produced by its `Map__arc_lookup` call: all fields other than
the arc arena are untouched, and the arena is either untouched (candidate not
better, result `0`) or updated in place at `i` with the new measurement
(candidate strictly better, result `1`), preserving the endpoints and
`in_tree`/`visit`. -/
theorem Map__arc_update_shape (ops : DoubleOps) (m : Map) (cf ct : Camera_Tag)
    (img : CV_Image) {m1 : Map} {r : Nat} {m0 : Map} {i : Nat}
    (hlk : Map__arc_lookup m cf.tag ct.tag = (m0, i))
    (h : Map__arc_update ops m cf ct img = some (m1, r)) :
    m1.all_tags = m0.all_tags ∧ m1.arcs_table = m0.arcs_table
    ∧ m1.all_arcs = m0.all_arcs ∧ m1.is_changed = m0.is_changed
    ∧ m1.pending_arcs = m0.pending_arcs ∧ m1.tag_heights = m0.tag_heights
    ∧ m1.visit = m0.visit
    ∧ ((m1.arcs = m0.arcs ∧ r = 0
          ∧ ¬ qlt (candidateGoodness ops img cf ct) ((arcAt m0.arcs i).goodness))
       ∨ (∃ arc1, m1.arcs = setArc m0.arcs i arc1
            ∧ arc1.from_tag = (arcAt m0.arcs i).from_tag
            ∧ arc1.to_tag = (arcAt m0.arcs i).to_tag
            ∧ arc1.goodness = candidateGoodness ops img cf ct
            ∧ arc1.in_tree = (arcAt m0.arcs i).in_tree
            ∧ arc1.visit = (arcAt m0.arcs i).visit
            ∧ (arcAt m0.arcs i).from_tag < (arcAt m0.arcs i).to_tag
            ∧ qlt (candidateGoodness ops img cf ct) ((arcAt m0.arcs i).goodness)
            ∧ r = 1)) := by
  unfold Map__arc_update at h
  cases hft : findTag m.all_tags cf.tag with
  | none => rw [hft] at h; simp at h
  | some ft =>
  cases htt : findTag m.all_tags ct.tag with
  | none => rw [hft, htt] at h; simp at h
  | some tt =>
  rw [hft, htt] at h
  simp only [hlk] at h
  by_cases hq : qlt (candidateGoodness ops img cf ct) ((arcAt m0.arcs i).goodness)
  · rw [if_pos hq] at h
    unfold Arc__update at h
    by_cases hcan : (arcAt m0.arcs i).from_tag < (arcAt m0.arcs i).to_tag
    · rw [if_pos hcan] at h
      cases h
      refine ⟨rfl, rfl, rfl, rfl, rfl, rfl, rfl, Or.inr ⟨_, rfl, rfl, rfl, rfl, rfl, rfl, hcan, hq, rfl⟩⟩
    · rw [if_neg hcan] at h
      simp at h
  · rw [if_neg hq] at h
    cases h
    exact ⟨rfl, rfl, rfl, rfl, rfl, rfl, rfl, Or.inl ⟨rfl, rfl, hq⟩⟩

theorem arcAt_eq_of_getElem? {arcs : List Arc} {i : Nat} {arc : Arc}
    (h : arcs[i]? = some arc) : arcAt arcs i = arc := by
  unfold arcAt
  rw [List.getD_eq_getElem?_getD, h]
  rfl

theorem map_arcsPair_set : ∀ (arcs : List Arc) (i : Nat) (a : Arc),
    arcsPair a = arcsPair (arcAt arcs i) →
    (arcs.set i a).map arcsPair = arcs.map arcsPair
  | [], _, _, _ => by simp
  | x :: xs, 0, a, h => by
      simp only [List.set, List.map_cons]
      have : arcsPair a = arcsPair x := by simpa [arcAt] using h
      rw [this]
  | x :: xs, i + 1, a, h => by
      simp only [List.set, List.map_cons]
      rw [map_arcsPair_set xs i a (by simpa [arcAt] using h)]

theorem tagIds_update_via_arc (ops : DoubleOps) (tags : List Tag) (arcs : List Arc)
    (i c : Nat) : tagIds (Tag__update_via_arc ops tags arcs i c) = tagIds tags := by
  unfold Tag__update_via_arc
  dsimp only []
  split <;> exact tagIds_updateTag _ _ _ (fun t => rfl)

/-- The propagation loop never changes the set of arcs' endpoint pairs nor
the tag ids (it only stamps scratch fields and assigns poses). -/
theorem propagateFuel_shape (ops : DoubleOps) (visit : Nat) :
    ∀ (fuel : Nat) (tags : List Tag) (arcs : List Arc) (pending : List Nat)
      {tags2 : List Tag} {arcs2 : List Arc},
      propagateFuel ops visit fuel tags arcs pending = some (tags2, arcs2) →
      arcs2.map arcsPair = arcs.map arcsPair ∧ tagIds tags2 = tagIds tags := by
  intro fuel
  induction fuel with
  | zero =>
    intro tags arcs pending tags2 arcs2 h
    simp [propagateFuel] at h
  | succ fuel ih =>
    intro tags arcs pending tags2 arcs2 h
    rw [propagateFuel] at h
    cases hlast : pending.getLast? with
    | none =>
      rw [hlast] at h
      cases h
      exact ⟨rfl, rfl⟩
    | some i =>
      simp only [hlast] at h
      cases harc : arcs[i]? with
      | none => simp only [harc] at h; exact Option.noConfusion h
      | some arc =>
        simp only [harc] at h
        have harcAt : arcAt arcs i = arc := arcAt_eq_of_getElem? harc
        by_cases hv : arc.visit = visit
        · rw [if_pos hv] at h
          exact ih _ _ _ h
        · rw [if_neg hv] at h
          cases hft : findTag tags arc.from_tag with
          | none => simp only [hft] at h; exact Option.noConfusion h
          | some ft =>
          cases htt : findTag tags arc.to_tag with
          | none => simp only [hft, htt] at h; exact Option.noConfusion h
          | some tt =>
          simp only [hft, htt] at h
          simp only [setArc, List.set_set] at h
          by_cases hfn : ft.visit ≠ visit
          · rw [if_pos hfn] at h
            by_cases htn : tt.visit ≠ visit
            · rw [if_pos htn] at h
              simp at h
            · rw [if_neg htn] at h
              obtain ⟨hpairs, hids⟩ := ih _ _ _ h
              refine ⟨?_, ?_⟩
              · rw [hpairs, map_arcsPair_set _ _ _ (by rw [harcAt]; rfl)]
              · rw [hids, tagIds_update_via_arc, tagIds_updateTag, tagIds_updateTag]
                all_goals exact fun t => rfl
          · rw [if_neg hfn] at h
            by_cases htn : tt.visit ≠ visit
            · rw [if_pos htn] at h
              obtain ⟨hpairs, hids⟩ := ih _ _ _ h
              refine ⟨?_, ?_⟩
              · rw [hpairs, map_arcsPair_set _ _ _ (by rw [harcAt]; rfl)]
              · rw [hids, tagIds_update_via_arc, tagIds_updateTag, tagIds_updateTag]
                all_goals exact fun t => rfl
            · rw [if_neg htn] at h
              obtain ⟨hpairs, hids⟩ := ih _ _ _ h
              exact ⟨by rw [hpairs, map_arcsPair_set _ _ _ (by rw [harcAt]; rfl)], hids⟩

/-- What a successful `Map__update` preserves: the arc pairs, the arc
bookkeeping lists, the tag ids, and the height table; afterwards
`is_changed` is `false` whenever it ran. -/
theorem Map__update_shape (ops : DoubleOps) (m : Map) {m' : Map}
    (h : Map__update ops m = some m') :
    m'.arcs.map arcsPair = m.arcs.map arcsPair
    ∧ m'.arcs_table = m.arcs_table
    ∧ m'.all_arcs = m.all_arcs
    ∧ List.Perm (tagIds m'.all_tags) (tagIds m.all_tags)
    ∧ m'.tag_heights = m.tag_heights := by
  unfold Map__update at h
  by_cases hc : m.is_changed
  · simp only [hc, if_true] at h
    cases hs : sortBy tagLe m.all_tags with
    | nil => rw [hs] at h; simp at h
    | cons origin rest =>
      rw [hs] at h
      simp only [] at h
      cases hp : propagate ops (m.visit + 1)
          (updateTag (origin :: rest) origin.id
            (fun t => { t with visit := m.visit + 1, hop_count := 0 }))
          m.arcs
          (sortBy
            (distanceLe
              (updateTag (origin :: rest) origin.id
                (fun t => { t with visit := m.visit + 1, hop_count := 0 }))
              m.arcs)
            (m.pending_arcs ++ origin.arcs)) with
      | none => rw [hp] at h; simp at h
      | some pair =>
        rw [hp] at h
        cases h
        obtain ⟨hpairs, hids⟩ := propagateFuel_shape ops (m.visit + 1) _ _ _ _ hp
        refine ⟨hpairs, rfl, rfl, ?_, rfl⟩
        rw [hids, tagIds_updateTag]
        · rw [← hs]
          exact List.Perm.map (fun t => t.id) (sortBy_perm tagLe m.all_tags)
        · exact fun t => rfl
  · simp only [Bool.not_eq_true] at hc
    simp only [hc, Bool.false_eq_true, if_false, Option.some.injEq] at h
    rw [← h]
    exact ⟨rfl, rfl, rfl, List.Perm.refl _, rfl⟩

/-- `Tag__read` never touches the arc arena or the arc bookkeeping lists. -/
theorem Tag__read_arcs (m : Map) (r : TagRecord) :
    (Tag__read m r).1.arcs = m.arcs
    ∧ (Tag__read m r).1.arcs_table = m.arcs_table
    ∧ (Tag__read m r).1.all_arcs = m.all_arcs
    ∧ (Tag__read m r).1.pending_arcs = m.pending_arcs := by
  obtain ⟨h1, h2, h3, h4⟩ := Map__tag_lookup_arcs m r.id
  unfold Tag__read
  exact ⟨h1, h2, h3, h4⟩

/-! ## C4 — edge deduplication -/

/-- The Edge Index registers exactly the arcs of the arena — true of every
state reachable without `Arc__read`, which bypasses the index. -/
def TableComplete (m : Map) : Prop := m.arcs_table = List.range m.arcs.length

instance (m : Map) : Decidable (TableComplete m) := by unfold TableComplete; infer_instance

/-- At most one Observation per unordered id pair. -/
def pairsNodup (m : Map) : Prop := (m.arcs.map arcsPair).Nodup

instance (m : Map) : Decidable (pairsNodup m) := by unfold pairsNodup; infer_instance

/-- Whether an operation is an `Arc__read` (the one operation that bypasses
the Edge Index). -/
def Op.loadsArc : Op → Bool
  | Op.arc_read _ => true
  | _ => false

theorem arc_update_dedup_inv {ops : DoubleOps} {m : Map} {cf ct : Camera_Tag}
    {img : CV_Image} {m1 : Map} {r : Nat}
    (h : Map__arc_update ops m cf ct img = some (m1, r))
    (htc : TableComplete m) (hnd : pairsNodup m) :
    TableComplete m1 ∧ pairsNodup m1 := by
  have hlk : Map__arc_lookup m cf.tag ct.tag
      = ((Map__arc_lookup m cf.tag ct.tag).1, (Map__arc_lookup m cf.tag ct.tag).2) := rfl
  obtain ⟨-, htab1, -, -, -, -, -, harcs1⟩ := Map__arc_update_shape ops m cf ct img hlk h
  rcases Map__arc_lookup_shape m cf.tag ct.tag hlk with ⟨htf, hm0⟩ | ⟨htf, hi0, harcs0, htab0, -, -, -, -, -, -⟩
  · -- pair already registered: the lookup state is `m`
    rw [hm0] at htab1 harcs1
    have hpairs1 : m1.arcs.map arcsPair = m.arcs.map arcsPair := by
      rcases harcs1 with ⟨he, -, -⟩ | ⟨arc1, he, hf, ht, -, -, -, -, -, -⟩
      · rw [he]
      · rw [he, setArc, map_arcsPair_set]
        unfold arcsPair
        rw [hf, ht]
    refine ⟨?_, ?_⟩
    · unfold TableComplete
      rw [htab1, htc, ← List.length_map m.arcs arcsPair, ← hpairs1,
        List.length_map]
    · unfold pairsNodup
      rw [hpairs1]
      exact hnd
  · -- pair not registered: a sentinel arc was appended and registered
    have hnotin : canonPair cf.tag ct.tag ∉ m.arcs.map arcsPair := by
      intro hmem
      rcases List.mem_map.mp hmem with ⟨a, ha, hpa⟩
      obtain ⟨j, hj⟩ := List.mem_iff_getElem?.mp ha
      have hjlen : j < m.arcs.length := by
        rcases List.getElem?_eq_some.mp hj with ⟨hlt, -⟩
        exact hlt
      have hjtab : j ∈ m.arcs_table := by
        rw [htc]
        exact List.mem_range.mpr hjlen
      have hfalse := List.find?_eq_none.mp htf j hjtab
      apply hfalse
      rw [arcAt_eq_of_getElem? hj]
      have h1 : a.from_tag = (canonPair cf.tag ct.tag).1 := by
        unfold arcsPair at hpa
        exact congrArg Prod.fst hpa
      have h2 : a.to_tag = (canonPair cf.tag ct.tag).2 := by
        unfold arcsPair at hpa
        exact congrArg Prod.snd hpa
      simp [h1, h2]
    have hm0pairs : (Map__arc_lookup m cf.tag ct.tag).1.arcs.map arcsPair
        = m.arcs.map arcsPair ++ [canonPair cf.tag ct.tag] := by
      rw [harcs0, List.map_append]
      rfl
    have hm0nodup : ((Map__arc_lookup m cf.tag ct.tag).1.arcs.map arcsPair).Nodup := by
      rw [hm0pairs, List.nodup_append]
      exact ⟨hnd, List.nodup_singleton _, by simpa using hnotin⟩
    have hm0tc : TableComplete (Map__arc_lookup m cf.tag ct.tag).1 := by
      unfold TableComplete
      rw [htab0, htc, harcs0]
      simp [List.range_succ]
    have hpairs1 : m1.arcs.map arcsPair = (Map__arc_lookup m cf.tag ct.tag).1.arcs.map arcsPair := by
      rcases harcs1 with ⟨he, -, -⟩ | ⟨arc1, he, hf, ht, -, -, -, -, -, -⟩
      · rw [he]
      · rw [he, setArc, map_arcsPair_set]
        unfold arcsPair
        rw [hf, ht]
    refine ⟨?_, ?_⟩
    · unfold TableComplete
      rw [htab1, hm0tc, ← List.length_map _ arcsPair, ← hpairs1, List.length_map]
    · unfold pairsNodup
      rw [hpairs1]
      exact hm0nodup

theorem runOps_dedup_inv (ops : DoubleOps) :
    ∀ (l : List Op) (m0 m : Map),
      (∀ op ∈ l, op.loadsArc = false) → runOps ops m0 l = some m →
      TableComplete m0 → pairsNodup m0 → TableComplete m ∧ pairsNodup m := by
  intro l
  induction l with
  | nil =>
    intro m0 m _ h htc hnd
    cases h
    exact ⟨htc, hnd⟩
  | cons op rest ih =>
    intro m0 m hl h htc hnd
    rw [runOps] at h
    cases hap : applyOp ops m0 op with
    | none => rw [hap] at h; exact Option.noConfusion h
    | some mm =>
      rw [hap] at h
      have hrest : ∀ o ∈ rest, o.loadsArc = false := fun o ho => hl o (List.mem_cons_of_mem _ ho)
      refine ih mm m hrest h ?_ ?_ <;>
      · cases op with
        | tag_lookup id =>
          obtain ⟨h1, h2, -, -⟩ := Map__tag_lookup_arcs m0 id
          simp only [applyOp, Option.some.injEq] at hap
          rw [← hap]
          first
            | (unfold TableComplete; rw [h1, h2]; exact htc)
            | (unfold pairsNodup; rw [h1]; exact hnd)
        | tag_read r =>
          obtain ⟨h1, h2, -, -⟩ := Tag__read_arcs m0 r
          simp only [applyOp, Option.some.injEq] at hap
          rw [← hap]
          first
            | (unfold TableComplete; rw [h1, h2]; exact htc)
            | (unfold pairsNodup; rw [h1]; exact hnd)
        | arc_update cf ct img =>
          simp only [applyOp] at hap
          cases hau : Map__arc_update ops m0 cf ct img with
          | none => rw [hau] at hap; exact Option.noConfusion hap
          | some rr =>
            rw [hau] at hap
            simp only [Option.some.injEq] at hap
            obtain ⟨htc1, hnd1⟩ := @arc_update_dedup_inv _ _ _ _ _ rr.1 rr.2 (by rw [hau]) htc hnd
            rw [← hap]
            first
              | exact htc1
              | exact hnd1
        | arc_read r =>
          exact absurd (hl _ (List.mem_cons_self _ _)) (by simp [Op.loadsArc])
        | update =>
          simp only [applyOp] at hap
          obtain ⟨hpairs, htab, -, -, -⟩ := Map__update_shape ops m0 hap
          first
            | (unfold TableComplete
               rw [htab, htc, ← List.length_map _ arcsPair, ← hpairs, List.length_map])
            | (unfold pairsNodup
               rw [hpairs]
               exact hnd)

/-- C4, counterexample: loading an `<Arc>` for the pair `(1, 2)` and then
ingesting the same pair yields an engine with *two* Observations over the
unordered pair `{1, 2}`: `Arc__read` calls `Arc__create` directly, neither
consulting nor populating the Edge Index, so the subsequent
`Map__arc_lookup` misses and creates a duplicate. -/
theorem claim4_dedup_counterexample :
    (runOps opsId Map__new
        [Op.arc_read ⟨1, qof 0, qof 3, 2, qof 0, qof 7, true⟩,
         Op.arc_update exCameraFrom exCameraToFar exImage]).map
      (fun m => m.arcs.map arcsPair)
    = some [(1, 2), (1, 2)] := by
  decide

/-- C4, amended: in every engine state reachable by ingests, tag loads and
updates — but no `Arc__read`, which bypasses the Edge Index — there is at
most one Observation per unordered pair of marker ids; and (in any state
whatsoever) a lookup for a pair already registered in the Edge Index returns
the existing Observation unchanged — it never raises and never adds a
duplicate. -/
theorem claim4_dedup_ingest_only (ops : DoubleOps) (l : List Op) (m : Map)
    (hl : ∀ op ∈ l, op.loadsArc = false)
    (h : runOps ops Map__new l = some m) :
    pairsNodup m
    ∧ (∀ x y i, tableFind m (canonPair x y).1 (canonPair x y).2 = some i →
        Map__arc_lookup m x y = (m, i)) :=
  ⟨(runOps_dedup_inv ops l Map__new m hl h rfl List.nodup_nil).2,
   fun _ _ _ hf => Map__arc_lookup_found hf⟩

/-- C4 witness: two markers, the pair `(1, 2)` ingested twice (the second
time with a worse measurement); the resulting engine holds a single
Observation and a registered-pair lookup returns it unchanged. -/
theorem claim4_dedup_ingest_only_witness :
    (∀ op ∈ [Op.tag_lookup 1, Op.tag_lookup 2,
        Op.arc_update exCameraFrom exCameraToNear exImage,
        Op.arc_update exCameraFrom exCameraToFar exImage], op.loadsArc = false)
    ∧ (pairsNodup ((runOps opsId Map__new
          [Op.tag_lookup 1, Op.tag_lookup 2,
           Op.arc_update exCameraFrom exCameraToNear exImage,
           Op.arc_update exCameraFrom exCameraToFar exImage]).getD Map__new)
        ∧ (∀ x y i, tableFind ((runOps opsId Map__new
              [Op.tag_lookup 1, Op.tag_lookup 2,
               Op.arc_update exCameraFrom exCameraToNear exImage,
               Op.arc_update exCameraFrom exCameraToFar exImage]).getD Map__new)
              (canonPair x y).1 (canonPair x y).2 = some i →
            Map__arc_lookup ((runOps opsId Map__new
              [Op.tag_lookup 1, Op.tag_lookup 2,
               Op.arc_update exCameraFrom exCameraToNear exImage,
               Op.arc_update exCameraFrom exCameraToFar exImage]).getD Map__new) x y
            = (((runOps opsId Map__new
              [Op.tag_lookup 1, Op.tag_lookup 2,
               Op.arc_update exCameraFrom exCameraToNear exImage,
               Op.arc_update exCameraFrom exCameraToFar exImage]).getD Map__new), i))) :=
  ⟨by decide,
   claim4_dedup_ingest_only opsId
     [Op.tag_lookup 1, Op.tag_lookup 2,
      Op.arc_update exCameraFrom exCameraToNear exImage,
      Op.arc_update exCameraFrom exCameraToFar exImage] _ (by decide) (by decide)⟩

/-! ## C7 — canonical ordering of Observations -/

/-- Whether an operation's two endpoints are distinct markers (an
`Observation` is "an undirected edge between two markers", and the disk
format requires `From_Tag_Id < To_Tag_Id`); vacuously true for the
single-marker and whole-map operations. -/
def Op.endpointsDistinct : Op → Bool
  | Op.arc_update cf ct _ => cf.tag != ct.tag
  | Op.arc_read r => r.from_tag_id != r.to_tag_id
  | _ => true

/-- The endpoint pairs a successful `Map__arc_update` leaves behind: either
unchanged, or extended by the canonical pair of the two camera tags. -/
theorem arc_update_pairs {ops : DoubleOps} {m : Map} {cf ct : Camera_Tag}
    {img : CV_Image} {m1 : Map} {r : Nat}
    (h : Map__arc_update ops m cf ct img = some (m1, r)) :
    m1.arcs.map arcsPair = m.arcs.map arcsPair
    ∨ m1.arcs.map arcsPair = m.arcs.map arcsPair ++ [canonPair cf.tag ct.tag] := by
  have hlk : Map__arc_lookup m cf.tag ct.tag
      = ((Map__arc_lookup m cf.tag ct.tag).1, (Map__arc_lookup m cf.tag ct.tag).2) := rfl
  obtain ⟨-, -, -, -, -, -, -, harcs1⟩ := Map__arc_update_shape ops m cf ct img hlk h
  have hpairs1 : m1.arcs.map arcsPair = (Map__arc_lookup m cf.tag ct.tag).1.arcs.map arcsPair := by
    rcases harcs1 with ⟨he, -, -⟩ | ⟨arc1, he, hf, ht, -, -, -, -, -, -⟩
    · rw [he]
    · rw [he, setArc, map_arcsPair_set]
      unfold arcsPair
      rw [hf, ht]
  rcases Map__arc_lookup_shape m cf.tag ct.tag hlk with ⟨-, hm0⟩ | ⟨-, -, harcs0, -, -, -, -, -, -, -⟩
  · rw [hm0] at hpairs1
    exact Or.inl hpairs1
  · right
    rw [hpairs1, harcs0, List.map_append]
    rfl

/-- The endpoint pairs `Arc__read` leaves behind: the old ones extended by
the canonical pair of the two persisted ids. -/
theorem Arc__read_pairs (m : Map) (r : ArcRecord) :
    (Arc__read m r).1.arcs.map arcsPair
      = m.arcs.map arcsPair ++ [canonPair r.from_tag_id r.to_tag_id] := by
  obtain ⟨ha1, -, -, -⟩ := Map__tag_lookup_arcs m r.from_tag_id
  obtain ⟨ha2, -, -, -⟩ := Map__tag_lookup_arcs (Map__tag_lookup m r.from_tag_id).1 r.to_tag_id
  obtain ⟨harcs, -, -, -, -, -, -, -, -⟩ :=
    Arc__create_shape (Map__tag_lookup (Map__tag_lookup m r.from_tag_id).1 r.to_tag_id).1
      r.from_tag_id (qmul r.from_twist_degrees (qdiv piQ (qof 180))) r.distance
      r.to_tag_id (qmul r.to_twist_degrees (qdiv piQ (qof 180))) r.goodness
  unfold Arc__read
  simp only []
  rw [setArc, map_arcsPair_set]
  · rw [harcs, ha2, ha1, List.map_append]
    congr 1
    unfold arcsPair canonPair
    split <;> rfl
  · rfl

theorem runOps_canonical_inv (ops : DoubleOps) :
    ∀ (l : List Op) (m0 m : Map),
      (∀ op ∈ l, op.endpointsDistinct = true) → runOps ops m0 l = some m →
      (∀ p ∈ m0.arcs.map arcsPair, p.1 < p.2) →
      (∀ p ∈ m.arcs.map arcsPair, p.1 < p.2) := by
  intro l
  induction l with
  | nil =>
    intro m0 m _ h hc
    cases h
    exact hc
  | cons op rest ih =>
    intro m0 m hl h hc
    rw [runOps] at h
    cases hap : applyOp ops m0 op with
    | none => rw [hap] at h; exact Option.noConfusion h
    | some mm =>
      rw [hap] at h
      have hrest : ∀ o ∈ rest, o.endpointsDistinct = true :=
        fun o ho => hl o (List.mem_cons_of_mem _ ho)
      have hop := hl op (List.mem_cons_self _ _)
      refine ih mm m hrest h ?_
      cases op with
      | tag_lookup id =>
        obtain ⟨h1, -, -, -⟩ := Map__tag_lookup_arcs m0 id
        simp only [applyOp, Option.some.injEq] at hap
        rw [← hap, h1]
        exact hc
      | tag_read r =>
        obtain ⟨h1, -, -, -⟩ := Tag__read_arcs m0 r
        simp only [applyOp, Option.some.injEq] at hap
        rw [← hap, h1]
        exact hc
      | arc_update cf ct img =>
        simp only [applyOp] at hap
        cases hau : Map__arc_update ops m0 cf ct img with
        | none => rw [hau] at hap; exact Option.noConfusion hap
        | some rr =>
          rw [hau] at hap
          simp only [Option.some.injEq] at hap
          have hne : cf.tag ≠ ct.tag := by
            simpa [Op.endpointsDistinct] using hop
          rcases @arc_update_pairs _ _ _ _ _ rr.1 rr.2 (by rw [hau]) with he | he <;>
            rw [← hap, he]
          · exact hc
          · intro p hp
            rcases List.mem_append.mp hp with hp | hp
            · exact hc p hp
            · rcases List.mem_singleton.mp hp with rfl
              exact canonPair_lt hne
      | arc_read r =>
        simp only [applyOp, Option.some.injEq] at hap
        have hne : r.from_tag_id ≠ r.to_tag_id := by
          simpa [Op.endpointsDistinct] using hop
        rw [← hap, Arc__read_pairs]
        intro p hp
        rcases List.mem_append.mp hp with hp | hp
        · exact hc p hp
        · rcases List.mem_singleton.mp hp with rfl
          exact canonPair_lt hne
      | update =>
        simp only [applyOp] at hap
        obtain ⟨hpairs, -, -, -, -⟩ := Map__update_shape ops m0 hap
        rw [hpairs]
        exact hc

/-- C7: every Observation in an engine built by any sequence of ingests,
loads and updates whose calls pair two *distinct* markers (the spec's data
model: markers have unique ids, the disk format requires
`From_Tag_Id < To_Tag_Id`) satisfies `from_tag.id < to_tag.id`;
`Arc__create` enforces it by swapping endpoints and twists whenever
`from.id > to.id` (the swap itself is exhibited by the C6 theorems). -/
theorem claim7_canonical_order (ops : DoubleOps) (l : List Op) (m : Map)
    (hl : ∀ op ∈ l, op.endpointsDistinct = true)
    (h : runOps ops Map__new l = some m) :
    ∀ a ∈ m.arcs, a.from_tag < a.to_tag := by
  have hp := runOps_canonical_inv ops l Map__new m hl h
    (by intro p hmem; simp [Map__new] at hmem)
  intro a ha
  exact hp (arcsPair a) (List.mem_map_of_mem _ ha)

/-- C7 witness: a run mixing a reversed-pair load, an ingest and an update;
every resulting Observation is canonically ordered. -/
theorem claim7_canonical_order_witness :
    (∀ op ∈ [Op.arc_read ⟨3, qof 90, qof 4, 1, qof 0, qof 2, false⟩,
        Op.tag_lookup 2,
        Op.arc_update exCameraFrom exCameraToFar exImage,
        Op.update], op.endpointsDistinct = true)
    ∧ (∀ a ∈ ((runOps opsId Map__new
        [Op.arc_read ⟨3, qof 90, qof 4, 1, qof 0, qof 2, false⟩,
         Op.tag_lookup 2,
         Op.arc_update exCameraFrom exCameraToFar exImage,
         Op.update]).getD Map__new).arcs, a.from_tag < a.to_tag) :=
  ⟨by decide,
   claim7_canonical_order opsId
     [Op.arc_read ⟨3, qof 90, qof 4, 1, qof 0, qof 2, false⟩,
      Op.tag_lookup 2,
      Op.arc_update exCameraFrom exCameraToFar exImage,
      Op.update] _ (by decide) (by decide)⟩

/-! ## C1 — monotone quality of ingest -/

/-- The goodness the Edge Index currently stores for a canonical pair
(`none` when the pair has no registered Observation). -/
def storedGoodness (m : Map) (p : Nat × Nat) : Option Q :=
  (tableFind m p.1 p.2).map (fun i => (arcAt m.arcs i).goodness)

/-- The candidate goodness of every `Map__arc_update` call of a run that
concerns the unordered pair `p`, in call order. -/
def offeredGoodness (ops : DoubleOps) (p : Nat × Nat) (l : List Op) : List Q :=
  l.filterMap (fun op => match op with
    | Op.arc_update cf ct img =>
        if canonPair cf.tag ct.tag = p then some (candidateGoodness ops img cf ct) else none
    | _ => none)

/-- Every Edge Index entry references into the arena (an invariant of all
reachable states). -/
def tableOk (m : Map) : Prop := ∀ i ∈ m.arcs_table, i < m.arcs.length

instance (m : Map) : Decidable (tableOk m) := by unfold tableOk; infer_instance

/-- Whether an operation is a `Map__arc_update` call. -/
def Op.isArcUpdate : Op → Bool
  | Op.arc_update _ _ _ => true
  | _ => false

theorem find?_congr_list {α : Type} {p q : α → Bool} :
    ∀ {l : List α}, (∀ a ∈ l, p a = q a) → l.find? p = l.find? q
  | [], _ => rfl
  | x :: xs, h => by
      rw [List.find?_cons, List.find?_cons, h x (List.mem_cons_self _ _)]
      cases hq : q x
      · exact find?_congr_list (fun a ha => h a (List.mem_cons_of_mem _ ha))
      · rfl

theorem arcAt_set_endpoint_eq {arcs : List Arc} {i : Nat} {arc1 : Arc}
    (hf : arc1.from_tag = (arcAt arcs i).from_tag)
    (ht : arc1.to_tag = (arcAt arcs i).to_tag) (k : Nat) :
    (arcAt (arcs.set i arc1) k).from_tag = (arcAt arcs k).from_tag
    ∧ (arcAt (arcs.set i arc1) k).to_tag = (arcAt arcs k).to_tag := by
  by_cases hk : i = k
  · subst hk
    by_cases hi : i < arcs.length
    · rw [arcAt_set_self hi]
      exact ⟨hf, ht⟩
    · rw [List.set_eq_of_length_le (Nat.le_of_not_lt hi)]
      exact ⟨rfl, rfl⟩
  · rw [arcAt_set_ne hk]
    exact ⟨rfl, rfl⟩

theorem tableFind_congr {m1 m : Map} (htab : m1.arcs_table = m.arcs_table)
    (harc : ∀ k, (arcAt m1.arcs k).from_tag = (arcAt m.arcs k).from_tag
      ∧ (arcAt m1.arcs k).to_tag = (arcAt m.arcs k).to_tag) (a b : Nat) :
    tableFind m1 a b = tableFind m a b := by
  unfold tableFind
  rw [htab]
  exact find?_congr_list (fun k _ => by rw [(harc k).1, (harc k).2])

theorem tableFind_mem_pred {m : Map} {a b i : Nat} (h : tableFind m a b = some i) :
    i ∈ m.arcs_table ∧ (arcAt m.arcs i).from_tag = a ∧ (arcAt m.arcs i).to_tag = b := by
  refine ⟨List.mem_of_find?_eq_some h, ?_⟩
  have hpred := List.find?_some h
  simpa using hpred

theorem tableFind_append {m m0 : Map} {anew : Arc}
    (hok : tableOk m)
    (htab : m0.arcs_table = m.arcs_table ++ [m.arcs.length])
    (harcs : m0.arcs = m.arcs ++ [anew]) (a b : Nat) :
    tableFind m0 a b = (tableFind m a b).or
      (if anew.from_tag = a ∧ anew.to_tag = b then some m.arcs.length else none) := by
  unfold tableFind
  rw [htab, List.find?_append]
  have h1 : m.arcs_table.find?
        (fun i => (arcAt m0.arcs i).from_tag == a && (arcAt m0.arcs i).to_tag == b)
      = m.arcs_table.find?
        (fun i => (arcAt m.arcs i).from_tag == a && (arcAt m.arcs i).to_tag == b) :=
    find?_congr_list (fun k hk => by rw [harcs, arcAt_append_lt (hok k hk)])
  rw [h1]
  congr 1
  rw [List.find?_cons]
  have harcAt : arcAt m0.arcs m.arcs.length = anew := by
    rw [harcs]
    exact arcAt_append_length _ _
  rw [harcAt]
  by_cases hc : anew.from_tag = a ∧ anew.to_tag = b
  · have : (anew.from_tag == a && anew.to_tag == b) = true := by
      simp [hc.1, hc.2]
    rw [this, if_pos hc]
  · have : (anew.from_tag == a && anew.to_tag == b) = false := by
      rcases Decidable.not_and_iff_or_not.mp hc with hna | hna <;> simp [hna]
    rw [this, if_neg hc]
    rfl

/-- What one successful `Map__arc_update` call does to the stored goodness of
every pair `p`: the pair the call concerns folds one `qmin` step (from the
sentinel when not yet registered), every other pair is untouched; the Edge
Index stays within the arena. -/
theorem arc_update_storedGoodness {ops : DoubleOps} {m : Map} {cf ct : Camera_Tag}
    {img : CV_Image} {m1 : Map} {r : Nat}
    (h : Map__arc_update ops m cf ct img = some (m1, r))
    (hok : tableOk m) (p : Nat × Nat) :
    tableOk m1
    ∧ storedGoodness m1 p = (if canonPair cf.tag ct.tag = p
        then some (qmin ((storedGoodness m p).getD sentinelGoodness)
          (candidateGoodness ops img cf ct))
        else storedGoodness m p) := by
  have hlk : Map__arc_lookup m cf.tag ct.tag
      = ((Map__arc_lookup m cf.tag ct.tag).1, (Map__arc_lookup m cf.tag ct.tag).2) := rfl
  obtain ⟨-, htab1, -, -, -, -, -, harcs1⟩ := Map__arc_update_shape ops m cf ct img hlk h
  rcases Map__arc_lookup_shape m cf.tag ct.tag hlk with
    ⟨htf, hm0⟩ | ⟨htf, hi0, harcs0, htab0, -, -, -, -, -, -⟩
  · -- the pair is registered: the lookup returns `m` itself
    rw [hm0] at htab1 harcs1
    obtain ⟨himem, hfrom, hto⟩ := tableFind_mem_pred htf
    have hilen : (Map__arc_lookup m cf.tag ct.tag).2 < m.arcs.length := hok _ himem
    rcases harcs1 with ⟨he, -, hnlt⟩ | ⟨arc1, he, hf, ht, hg, -, -, -, hqlt, -⟩
    · -- candidate not better: nothing changes
      refine ⟨?_, ?_⟩
      · intro k hk
        rw [he]
        exact hok k (htab1 ▸ hk)
      · have hsame : storedGoodness m1 p = storedGoodness m p := by
          unfold storedGoodness tableFind
          rw [he, htab1]
        rw [hsame]
        by_cases hqp : canonPair cf.tag ct.tag = p
        · rw [if_pos hqp]
          rw [← hqp]
          have hstq : storedGoodness m (canonPair cf.tag ct.tag)
              = some ((arcAt m.arcs (Map__arc_lookup m cf.tag ct.tag).2).goodness) := by
            unfold storedGoodness
            rw [htf]
            rfl
          rw [hstq]
          simp only [Option.getD_some]
          unfold qmin
          rw [if_neg hnlt]
        · rw [if_neg hqp]
    · -- candidate strictly better: in-place overwrite at the stored index
      have hfind : ∀ a b, tableFind m1 a b = tableFind m a b := by
        intro a b
        refine tableFind_congr htab1 (fun k => ?_) a b
        rw [he, setArc]
        exact arcAt_set_endpoint_eq hf ht k
      refine ⟨?_, ?_⟩
      · intro k hk
        rw [he, setArc, List.length_set]
        exact hok k (htab1 ▸ hk)
      · by_cases hqp : canonPair cf.tag ct.tag = p
        · rw [if_pos hqp, ← hqp]
          unfold storedGoodness
          rw [hfind, htf]
          have harc1 : arcAt m1.arcs (Map__arc_lookup m cf.tag ct.tag).2 = arc1 := by
            rw [he, setArc]
            exact arcAt_set_self hilen arc1
          simp only [Option.map_some', Option.getD_some]
          rw [harc1, hg]
          unfold qmin
          rw [if_pos hqlt]
        · rw [if_neg hqp]
          unfold storedGoodness
          rw [hfind]
          cases hfp : tableFind m p.1 p.2 with
          | none => rfl
          | some k =>
            obtain ⟨hkmem, hkf, hkt⟩ := tableFind_mem_pred hfp
            have hki : (Map__arc_lookup m cf.tag ct.tag).2 ≠ k := by
              intro hik
              apply hqp
              apply Prod.ext
              · rw [← hfrom, hik, hkf]
              · rw [← hto, hik, hkt]
            simp only [Option.map_some']
            rw [he, setArc, arcAt_set_ne hki]
  · -- the pair was not registered: a sentinel arc was created at the tail
    have hTF0 : ∀ a b, tableFind (Map__arc_lookup m cf.tag ct.tag).1 a b
        = (tableFind m a b).or
          (if (canonPair cf.tag ct.tag).1 = a ∧ (canonPair cf.tag ct.tag).2 = b
            then some m.arcs.length else none) :=
      fun a b => tableFind_append hok htab0 harcs0 a b
    have harcAt0 : arcAt (Map__arc_lookup m cf.tag ct.tag).1.arcs (Map__arc_lookup m cf.tag ct.tag).2
        = (⟨(canonPair cf.tag ct.tag).1, (canonPair cf.tag ct.tag).2,
            qof 0, qof 0, qof 0, sentinelGoodness, false, 0⟩ : Arc) := by
      rw [harcs0, hi0]
      exact arcAt_append_length _ _
    have hlen0 : (Map__arc_lookup m cf.tag ct.tag).1.arcs.length = m.arcs.length + 1 := by
      rw [harcs0]
      simp
    have hok0 : tableOk (Map__arc_lookup m cf.tag ct.tag).1 := by
      intro k hk
      rw [htab0] at hk
      rw [hlen0]
      rcases List.mem_append.mp hk with hk | hk
      · exact Nat.lt_succ_of_lt (hok k hk)
      · rcases List.mem_singleton.mp hk with rfl
        exact Nat.lt_succ_self _
    rcases harcs1 with ⟨he, -, hnlt⟩ | ⟨arc1, he, hf, ht, hg, -, -, -, hqlt, -⟩
    · -- candidate not better than the sentinel
      rw [harcAt0] at hnlt
      refine ⟨?_, ?_⟩
      · intro k hk
        rw [he]
        exact hok0 k (htab1 ▸ hk)
      · have hsame : storedGoodness m1 p = storedGoodness (Map__arc_lookup m cf.tag ct.tag).1 p := by
          unfold storedGoodness tableFind
          rw [he, htab1]
        rw [hsame]
        unfold storedGoodness
        rw [hTF0]
        by_cases hqp : canonPair cf.tag ct.tag = p
        · rw [← hqp]
          have hnonep : tableFind m (canonPair cf.tag ct.tag).1 (canonPair cf.tag ct.tag).2 = none := htf
          rw [hnonep, if_pos ⟨rfl, rfl⟩, if_pos rfl]
          simp only [Option.none_or, Option.map_some', Option.map_none', Option.getD_none]
          rw [← hi0, harcAt0]
          unfold qmin
          rw [if_neg hnlt]
        · rw [if_neg hqp]
          have hcond : ¬ ((canonPair cf.tag ct.tag).1 = p.1 ∧ (canonPair cf.tag ct.tag).2 = p.2) := by
            intro hc
            exact hqp (Prod.ext hc.1 hc.2)
          rw [if_neg hcond]
          simp only [Option.or_none]
          cases hfp : tableFind m p.1 p.2 with
          | none => rfl
          | some k =>
            obtain ⟨hkmem, -, -⟩ := tableFind_mem_pred hfp
            simp only [Option.map_some']
            rw [harcs0, arcAt_append_lt (hok k hkmem)]
    · -- candidate better than the sentinel: overwrite the fresh arc
      rw [harcAt0] at hqlt
      have hfind : ∀ a b, tableFind m1 a b = tableFind (Map__arc_lookup m cf.tag ct.tag).1 a b := by
        intro a b
        refine tableFind_congr htab1 (fun k => ?_) a b
        rw [he, setArc]
        refine arcAt_set_endpoint_eq ?_ ?_ k
        · rw [hf]
        · rw [ht]
      refine ⟨?_, ?_⟩
      · intro k hk
        rw [he, setArc, List.length_set]
        exact hok0 k (htab1 ▸ hk)
      · unfold storedGoodness
        rw [hfind, hTF0]
        by_cases hqp : canonPair cf.tag ct.tag = p
        · rw [← hqp]
          have hnonep : tableFind m (canonPair cf.tag ct.tag).1 (canonPair cf.tag ct.tag).2 = none := htf
          rw [hnonep, if_pos ⟨rfl, rfl⟩, if_pos rfl]
          simp only [Option.none_or, Option.map_some']
          have harc1 : arcAt m1.arcs m.arcs.length = arc1 := by
            rw [he, setArc, hi0]
            refine arcAt_set_self ?_ arc1
            rw [hlen0, ← hi0]
            rw [hi0]
            exact Nat.lt_succ_self _
          rw [harc1, hg]
          simp only [Option.map_none', Option.getD_none]
          unfold qmin
          rw [if_pos hqlt]
        · rw [if_neg hqp]
          have hcond : ¬ ((canonPair cf.tag ct.tag).1 = p.1 ∧ (canonPair cf.tag ct.tag).2 = p.2) := by
            intro hc
            exact hqp (Prod.ext hc.1 hc.2)
          rw [if_neg hcond]
          simp only [Option.or_none]
          cases hfp : tableFind m p.1 p.2 with
          | none => rfl
          | some k =>
            obtain ⟨hkmem, -, -⟩ := tableFind_mem_pred hfp
            have hklen : k < m.arcs.length := hok k hkmem
            simp only [Option.map_some']
            have hki : (Map__arc_lookup m cf.tag ct.tag).2 ≠ k := by
              rw [hi0]
              omega
            rw [he, setArc, arcAt_set_ne hki, harcs0, arcAt_append_lt hklen]

theorem runOps_storedGoodness (ops : DoubleOps) (p : Nat × Nat) :
    ∀ (l : List Op) (m0 m : Map),
      (∀ op ∈ l, op.isArcUpdate = true) → runOps ops m0 l = some m → tableOk m0 →
      storedGoodness m p
        = (offeredGoodness ops p l).foldl
            (fun acc c => some (qmin (acc.getD sentinelGoodness) c)) (storedGoodness m0 p) := by
  intro l
  induction l with
  | nil =>
    intro m0 m _ h _
    cases h
    rfl
  | cons op rest ih =>
    intro m0 m hl h hok
    rw [runOps] at h
    cases op with
    | arc_update cf ct img =>
      simp only [applyOp] at h
      cases hau : Map__arc_update ops m0 cf ct img with
      | none => rw [hau] at h; exact Option.noConfusion h
      | some rr =>
        rw [hau] at h
        obtain ⟨hok1, hstep⟩ :=
          @arc_update_storedGoodness _ _ _ _ _ rr.1 rr.2 (by rw [hau]) hok p
        have hrest := ih rr.1 m (fun o ho => hl o (List.mem_cons_of_mem _ ho)) h hok1
        rw [hrest, hstep]
        by_cases hqp : canonPair cf.tag ct.tag = p
        · have hof : offeredGoodness ops p (Op.arc_update cf ct img :: rest)
              = candidateGoodness ops img cf ct :: offeredGoodness ops p rest := by
            unfold offeredGoodness
            rw [List.filterMap_cons]
            simp only [if_pos hqp]
          rw [hof, List.foldl_cons, if_pos hqp]
        · have hof : offeredGoodness ops p (Op.arc_update cf ct img :: rest)
              = offeredGoodness ops p rest := by
            unfold offeredGoodness
            rw [List.filterMap_cons]
            simp only [if_neg hqp]
          rw [hof, if_neg hqp]
    | tag_lookup id =>
      exact absurd (hl _ (List.mem_cons_self _ _)) (by simp [Op.isArcUpdate])
    | tag_read r =>
      exact absurd (hl _ (List.mem_cons_self _ _)) (by simp [Op.isArcUpdate])
    | arc_read r =>
      exact absurd (hl _ (List.mem_cons_self _ _)) (by simp [Op.isArcUpdate])
    | update =>
      exact absurd (hl _ (List.mem_cons_self _ _)) (by simp [Op.isArcUpdate])

theorem foldl_qmin_some (gs : List Q) : ∀ g : Q,
    gs.foldl (fun acc c => some (qmin (acc.getD sentinelGoodness) c)) (some g)
      = some (gs.foldl qmin g) := by
  induction gs with
  | nil => intro g; rfl
  | cons c cs ih =>
    intro g
    rw [List.foldl_cons, List.foldl_cons]
    simp only [Option.getD_some]
    exact ih (qmin g c)

theorem foldl_qmin_none (gs : List Q) :
    gs.foldl (fun acc c => some (qmin (acc.getD sentinelGoodness) c)) none
      = (if gs = [] then none else some (gs.foldl qmin sentinelGoodness)) := by
  cases gs with
  | nil => rfl
  | cons c cs =>
    rw [List.foldl_cons, List.foldl_cons]
    simp only [Option.getD_none]
    rw [foldl_qmin_some]
    simp

/-- C1: over any sequence of `Map__arc_update` calls from a state where the
pair has no registered Observation, the stored goodness for the pair is
exactly the `qmin`-fold of the sentinel `123456789.0` with every candidate
goodness ever offered for that pair (`none` when no call concerned it); and
an ingest whose candidate goodness is not strictly below the stored goodness
returns `0` ("not updated") and leaves the engine — in particular every
field of the Observation — unchanged. -/
theorem claim1_monotone_goodness (ops : DoubleOps) (l : List Op) (m0 m : Map) (p : Nat × Nat)
    (hl : ∀ op ∈ l, op.isArcUpdate = true)
    (hok : tableOk m0)
    (hnone : storedGoodness m0 p = none)
    (h : runOps ops m0 l = some m) :
    (storedGoodness m p
      = if offeredGoodness ops p l = [] then none
        else some ((offeredGoodness ops p l).foldl qmin sentinelGoodness))
    ∧ (∀ cf ct img i,
        (findTag m0.all_tags cf.tag).isSome → (findTag m0.all_tags ct.tag).isSome →
        tableFind m0 (canonPair cf.tag ct.tag).1 (canonPair cf.tag ct.tag).2 = some i →
        ¬ qlt (candidateGoodness ops img cf ct) ((arcAt m0.arcs i).goodness) →
        Map__arc_update ops m0 cf ct img = some (m0, 0)) := by
  refine ⟨?_, ?_⟩
  · rw [runOps_storedGoodness ops p l m0 m hl h hok, hnone]
    exact foldl_qmin_none _
  · intro cf ct img i hf ht hfound hnlt
    obtain ⟨ft, hft⟩ := Option.isSome_iff_exists.mp hf
    obtain ⟨tt, htt⟩ := Option.isSome_iff_exists.mp ht
    unfold Map__arc_update
    simp only [hft, htt, Map__arc_lookup_found hfound]
    rw [if_neg hnlt]

/-- The engine holding just markers 1 and 2 (no Observations yet). -/
def exMapTags12 : Map :=
  (runOps opsId Map__new [Op.tag_lookup 1, Op.tag_lookup 2]).getD Map__new

/-- C1 witness: two measurements of the pair `(1, 2)` (goodness 100 then 25
under `opsId`); the stored goodness is the fold of `qmin` over both, and a
repeat of the worse measurement afterwards returns `0` leaving the engine
unchanged. -/
theorem claim1_monotone_goodness_witness :
    ((∀ op ∈ [Op.arc_update exCameraFrom exCameraToFar exImage,
        Op.arc_update exCameraFrom exCameraToNear exImage], op.isArcUpdate = true)
      ∧ tableOk exMapTags12 ∧ storedGoodness exMapTags12 (1, 2) = none)
    ∧ ((storedGoodness ((runOps opsId exMapTags12
          [Op.arc_update exCameraFrom exCameraToFar exImage,
           Op.arc_update exCameraFrom exCameraToNear exImage]).getD Map__new) (1, 2)
        = if offeredGoodness opsId (1, 2)
              [Op.arc_update exCameraFrom exCameraToFar exImage,
               Op.arc_update exCameraFrom exCameraToNear exImage] = [] then none
          else some ((offeredGoodness opsId (1, 2)
              [Op.arc_update exCameraFrom exCameraToFar exImage,
               Op.arc_update exCameraFrom exCameraToNear exImage]).foldl qmin sentinelGoodness))
      ∧ (∀ cf ct img i,
          (findTag exMapTags12.all_tags cf.tag).isSome →
          (findTag exMapTags12.all_tags ct.tag).isSome →
          tableFind exMapTags12 (canonPair cf.tag ct.tag).1 (canonPair cf.tag ct.tag).2 = some i →
          ¬ qlt (candidateGoodness opsId img cf ct) ((arcAt exMapTags12.arcs i).goodness) →
          Map__arc_update opsId exMapTags12 cf ct img = some (exMapTags12, 0))) :=
  ⟨⟨by decide, by decide, by decide⟩,
   claim1_monotone_goodness opsId
     [Op.arc_update exCameraFrom exCameraToFar exImage,
      Op.arc_update exCameraFrom exCameraToNear exImage]
     exMapTags12 _ (1, 2) (by decide) (by decide) (by decide) (by decide)⟩

/-! ## C2 — the origin's pose under `Map__update` -/

theorem mem_updateTag_of_ne {tags : List Tag} {id : Nat} {f : Tag → Tag} {t : Tag}
    (ht : t ∈ tags) (hne : t.id ≠ id) : t ∈ updateTag tags id f := by
  have h := @mem_updateTag tags id f t ht
  rw [if_neg hne] at h
  exact h

theorem mem_update_via_arc_of_ne {ops : DoubleOps} {tags : List Tag} {arcs : List Arc}
    {i c : Nat} {t : Tag} (ht : t ∈ tags) (hne : t.id ≠ c) :
    t ∈ Tag__update_via_arc ops tags arcs i c := by
  unfold Tag__update_via_arc
  dsimp only []
  split <;> exact mem_updateTag_of_ne ht hne

theorem idsNodup_update_via_arc {ops : DoubleOps} {tags : List Tag} {arcs : List Arc}
    {i c : Nat} (h : idsNodup tags) : idsNodup (Tag__update_via_arc ops tags arcs i c) := by
  unfold idsNodup
  rw [tagIds_update_via_arc]
  exact h

/-- Once a tag carries the current generation stamp, the propagation loop
never touches its pose again: `Tag__update_via_arc` is only ever invoked on
an endpoint that was unvisited when its arc was popped. -/
theorem propagateFuel_pose_preserved (ops : DoubleOps) (visit : Nat) :
    ∀ (fuel : Nat) (tags : List Tag) (arcs : List Arc) (pending : List Nat)
      {tags2 : List Tag} {arcs2 : List Arc},
      propagateFuel ops visit fuel tags arcs pending = some (tags2, arcs2) →
      idsNodup tags →
      ∀ t ∈ tags, t.visit = visit →
      ∀ t2 ∈ tags2, t2.id = t.id → t2.x = t.x ∧ t2.y = t.y ∧ t2.twist = t.twist := by
  intro fuel
  induction fuel with
  | zero =>
    intro tags arcs pending tags2 arcs2 h
    simp [propagateFuel] at h
  | succ fuel ih =>
    intro tags arcs pending tags2 arcs2 h hnod t ht htv t2 ht2 hid
    rw [propagateFuel] at h
    cases hlast : pending.getLast? with
    | none =>
      rw [hlast] at h
      cases h
      rcases eq_of_mem_of_id_eq hnod ht2 ht hid with rfl
      exact ⟨rfl, rfl, rfl⟩
    | some i =>
      simp only [hlast] at h
      cases harc : arcs[i]? with
      | none => simp only [harc] at h; exact Option.noConfusion h
      | some arc =>
        simp only [harc] at h
        by_cases hv : arc.visit = visit
        · rw [if_pos hv] at h
          exact ih _ _ _ h hnod t ht htv t2 ht2 hid
        · rw [if_neg hv] at h
          cases hft : findTag tags arc.from_tag with
          | none => simp only [hft] at h; exact Option.noConfusion h
          | some ft =>
          cases htt : findTag tags arc.to_tag with
          | none => simp only [hft, htt] at h; exact Option.noConfusion h
          | some tt =>
          simp only [hft, htt] at h
          by_cases hfn : ft.visit ≠ visit
          · rw [if_pos hfn] at h
            by_cases htn : tt.visit ≠ visit
            · rw [if_pos htn] at h
              exact Option.noConfusion h
            · rw [if_neg htn] at h
              have hne : t.id ≠ arc.from_tag := by
                intro heq
                have := findTag_eq_of_nodup hnod ht heq
                rw [this] at hft
                cases hft
                exact hfn htv
              have hmem3 : t ∈ Tag__update_via_arc ops
                  (updateTag
                    (updateTag tags arc.from_tag
                      (fun u => { u with hop_count := tt.hop_count + 1 }))
                    arc.from_tag (fun u => { u with visit := visit }))
                  (setArc arcs i { arc with visit := visit }) i arc.from_tag :=
                mem_update_via_arc_of_ne
                  (mem_updateTag_of_ne (mem_updateTag_of_ne ht hne) hne) hne
              have hnod3 : idsNodup (Tag__update_via_arc ops
                  (updateTag
                    (updateTag tags arc.from_tag
                      (fun u => { u with hop_count := tt.hop_count + 1 }))
                    arc.from_tag (fun u => { u with visit := visit }))
                  (setArc arcs i { arc with visit := visit }) i arc.from_tag) :=
                idsNodup_update_via_arc
                  (idsNodup_updateTag (fun u => rfl) (idsNodup_updateTag (fun u => rfl) hnod))
              exact ih _ _ _ h hnod3 t hmem3 htv t2 ht2 hid
          · rw [if_neg hfn] at h
            by_cases htn : tt.visit ≠ visit
            · rw [if_pos htn] at h
              have hne : t.id ≠ arc.to_tag := by
                intro heq
                have := findTag_eq_of_nodup hnod ht heq
                rw [this] at htt
                cases htt
                exact htn htv
              have hmem3 : t ∈ Tag__update_via_arc ops
                  (updateTag
                    (updateTag tags arc.to_tag
                      (fun u => { u with hop_count := ft.hop_count + 1 }))
                    arc.to_tag (fun u => { u with visit := visit }))
                  (setArc arcs i { arc with visit := visit }) i arc.to_tag :=
                mem_update_via_arc_of_ne
                  (mem_updateTag_of_ne (mem_updateTag_of_ne ht hne) hne) hne
              have hnod3 : idsNodup (Tag__update_via_arc ops
                  (updateTag
                    (updateTag tags arc.to_tag
                      (fun u => { u with hop_count := ft.hop_count + 1 }))
                    arc.to_tag (fun u => { u with visit := visit }))
                  (setArc arcs i { arc with visit := visit }) i arc.to_tag) :=
                idsNodup_update_via_arc
                  (idsNodup_updateTag (fun u => rfl) (idsNodup_updateTag (fun u => rfl) hnod))
              exact ih _ _ _ h hnod3 t hmem3 htv t2 ht2 hid
            · rw [if_neg htn] at h
              exact ih _ _ _ h hnod t ht htv t2 ht2 hid

/-- C2, counterexample: an engine holding one loaded marker (id 1 at
`x = 5`), dirty.  `Map__update` runs pose propagation, yet the lowest-id
marker's pose stays `(5, 0, 0·π/180)` — the propagation step assigns the
origin no pose at all (`Map.c` lines 554–556 set only `visit` and
`hop_count`), so `x = 0` fails. -/
theorem claim2_origin_counterexample :
    (Tag__read Map__new ⟨1, qof 5, qof 0, qof 0⟩).1.is_changed = true
    ∧ (Map__update opsId (Tag__read Map__new ⟨1, qof 5, qof 0, qof 0⟩).1).map
        (fun m => m.all_tags.map (fun t => (t.id, t.x)))
      = some [(1, qof 5)]
    ∧ qof 5 ≠ qof 0 := by
  decide

/-- C2, amended: `Map__update` never assigns the origin's pose — after a
successful call, every lowest-id marker's `(x, y, twist)` equal their values
before the call (the propagation step stamps only the origin's `visit` and
`hop_count`); the origin sits at `(0, 0, 0)` only if it already did, e.g. a
marker freshly created by ingest and never loaded from disk. -/
theorem claim2_origin_pose_preserved (ops : DoubleOps) (m m' : Map)
    (hnod : idsNodup m.all_tags)
    (h : Map__update ops m = some m') :
    ∀ t ∈ m.all_tags, (∀ u ∈ m.all_tags, t.id ≤ u.id) →
      ∀ t2 ∈ m'.all_tags, t2.id = t.id →
        t2.x = t.x ∧ t2.y = t.y ∧ t2.twist = t.twist := by
  intro t ht hmin t2 ht2 hid
  unfold Map__update at h
  by_cases hc : m.is_changed
  · simp only [hc, if_true] at h
    cases hs : sortBy tagLe m.all_tags with
    | nil => rw [hs] at h; simp at h
    | cons origin rest =>
      rw [hs] at h
      simp only [] at h
      cases hp : propagate ops (m.visit + 1)
          (updateTag (origin :: rest) origin.id
            (fun u => { u with visit := m.visit + 1, hop_count := 0 }))
          m.arcs
          (sortBy
            (distanceLe
              (updateTag (origin :: rest) origin.id
                (fun u => { u with visit := m.visit + 1, hop_count := 0 }))
              m.arcs)
            (m.pending_arcs ++ origin.arcs)) with
      | none => rw [hp] at h; simp at h
      | some pair =>
        rw [hp] at h
        cases h
        have horig_mem : origin ∈ m.all_tags := by
          rw [← @mem_sortBy Tag tagLe m.all_tags origin, hs]
          exact List.mem_cons_self _ _
        have hsorted := sortBy_pairwise tagLe_total tagLe_trans m.all_tags
        rw [hs] at hsorted
        have horig_min : origin.id ≤ t.id := by
          have htmem : t ∈ origin :: rest := by
            rw [← hs, mem_sortBy]
            exact ht
          rcases List.mem_cons.mp htmem with rfl | htr
          · exact Nat.le_refl _
          · exact (tagLe_iff origin t).mp ((List.pairwise_cons.mp hsorted).1 t htr)
        have hteq : t = origin :=
          eq_of_mem_of_id_eq hnod ht horig_mem
            (Nat.le_antisymm (hmin origin horig_mem) horig_min)
        have hnods : idsNodup (origin :: rest) := by
          rw [← hs]
          exact idsNodup_sortBy hnod
        have hnod1 : idsNodup (updateTag (origin :: rest) origin.id
            (fun u => { u with visit := m.visit + 1, hop_count := 0 })) :=
          idsNodup_updateTag (fun u => rfl) hnods
        have hfo : (if origin.id = origin.id
              then ({ origin with visit := m.visit + 1, hop_count := 0 } : Tag)
              else origin)
            ∈ updateTag (origin :: rest) origin.id
              (fun u => { u with visit := m.visit + 1, hop_count := 0 }) :=
          mem_updateTag (List.mem_cons_self _ _)
        rw [if_pos rfl] at hfo
        unfold propagate at hp
        have hres := propagateFuel_pose_preserved ops (m.visit + 1) _ _ _ _ hp hnod1
          ({ origin with visit := m.visit + 1, hop_count := 0 }) hfo rfl t2 ht2
          (by rw [hid, hteq])
        rw [hteq]
        exact hres
  · simp only [Bool.not_eq_true] at hc
    simp only [hc, Bool.false_eq_true, if_false, Option.some.injEq] at h
    rw [← h] at ht2
    rcases eq_of_mem_of_id_eq hnod ht2 ht hid with rfl
    exact ⟨rfl, rfl, rfl⟩

/-- C2 witness: the amended statement at a concrete dirty two-marker engine
with one Observation; the lowest-id marker's pose survives `Map__update`
unchanged. -/
theorem claim2_origin_pose_preserved_witness :
    (idsNodup ((runOps opsId Map__new
        [Op.tag_lookup 1, Op.tag_lookup 2,
         Op.arc_update exCameraFrom exCameraToFar exImage]).getD Map__new).all_tags
      ∧ Map__update opsId ((runOps opsId Map__new
          [Op.tag_lookup 1, Op.tag_lookup 2,
           Op.arc_update exCameraFrom exCameraToFar exImage]).getD Map__new)
        = some ((Map__update opsId ((runOps opsId Map__new
            [Op.tag_lookup 1, Op.tag_lookup 2,
             Op.arc_update exCameraFrom exCameraToFar exImage]).getD Map__new)).getD Map__new))
    ∧ (∀ t ∈ ((runOps opsId Map__new
        [Op.tag_lookup 1, Op.tag_lookup 2,
         Op.arc_update exCameraFrom exCameraToFar exImage]).getD Map__new).all_tags,
        (∀ u ∈ ((runOps opsId Map__new
          [Op.tag_lookup 1, Op.tag_lookup 2,
           Op.arc_update exCameraFrom exCameraToFar exImage]).getD Map__new).all_tags,
          t.id ≤ u.id) →
        ∀ t2 ∈ ((Map__update opsId ((runOps opsId Map__new
            [Op.tag_lookup 1, Op.tag_lookup 2,
             Op.arc_update exCameraFrom exCameraToFar exImage]).getD Map__new)).getD Map__new).all_tags,
          t2.id = t.id → t2.x = t.x ∧ t2.y = t.y ∧ t2.twist = t.twist) :=
  ⟨⟨by decide, by decide⟩,
   claim2_origin_pose_preserved opsId
     ((runOps opsId Map__new
        [Op.tag_lookup 1, Op.tag_lookup 2,
         Op.arc_update exCameraFrom exCameraToFar exImage]).getD Map__new)
     _ (by decide) (by decide)⟩

/-! ## C8 — frontier safety of the propagation loop -/

/-- Every incident-edge reference of every tag points into the arena, at an
arc having that tag as an endpoint (spec §3: "every Observation listed in
`incident_edges` has this Marker as one of its two endpoints"). -/
def arcRefsOk (tags : List Tag) (arcs : List Arc) : Prop :=
  ∀ t ∈ tags, ∀ i ∈ t.arcs, i < arcs.length ∧
    ((arcAt arcs i).from_tag = t.id ∨ (arcAt arcs i).to_tag = t.id)

instance (tags : List Tag) (arcs : List Arc) : Decidable (arcRefsOk tags arcs) := by
  unfold arcRefsOk
  infer_instance

/-- Both endpoints of every arc name a tag of the engine. -/
def endpointsPresent (tags : List Tag) (arcs : List Arc) : Prop :=
  ∀ a ∈ arcs, (∃ t ∈ tags, t.id = a.from_tag) ∧ (∃ t ∈ tags, t.id = a.to_tag)

instance (tags : List Tag) (arcs : List Arc) : Decidable (endpointsPresent tags arcs) := by
  unfold endpointsPresent
  infer_instance

/-- Every frontier reference is in range and one of its endpoints is already
stamped with the current generation — the invariant whose preservation makes
the both-endpoints-new branch unreachable. -/
def frontierOk (visit : Nat) (tags : List Tag) (arcs : List Arc) (pending : List Nat) : Prop :=
  ∀ i ∈ pending, i < arcs.length ∧
    (∃ t ∈ tags, (t.id = (arcAt arcs i).from_tag ∨ t.id = (arcAt arcs i).to_tag)
      ∧ t.visit = visit)

/-- The shape shared by every per-tag write the propagation loop performs:
the id and the incident list are untouched, and a current-generation stamp is
never removed. -/
def TagStep (visit : Nat) (f : Tag → Tag) : Prop :=
  ∀ t, (f t).id = t.id ∧ (f t).arcs = t.arcs ∧ (t.visit = visit → (f t).visit = visit)

theorem updateTag_source {tags : List Tag} {id : Nat} {f : Tag → Tag} {visit : Nat}
    (hf : TagStep visit f) :
    ∀ t2 ∈ updateTag tags id f, ∃ t ∈ tags, t2.id = t.id ∧ t2.arcs = t.arcs := by
  intro t2 ht2
  obtain ⟨t, ht, he⟩ := updateTag_mem ht2
  refine ⟨t, ht, ?_⟩
  rw [he]
  split
  · exact ⟨(hf t).1, (hf t).2.1⟩
  · exact ⟨rfl, rfl⟩

theorem updateTag_target {tags : List Tag} {id : Nat} {f : Tag → Tag} {visit : Nat}
    (hf : TagStep visit f) :
    ∀ t ∈ tags, ∃ t2 ∈ updateTag tags id f, t2.id = t.id ∧ (t.visit = visit → t2.visit = visit) := by
  intro t ht
  refine ⟨if t.id = id then f t else t, mem_updateTag ht, ?_⟩
  split
  · exact ⟨(hf t).1, (hf t).2.2⟩
  · exact ⟨rfl, fun h => h⟩

/-- `Tag__update_via_arc` is an `updateTag` on the child with a pose-writing
step function. -/
theorem update_via_arc_as_updateTag (ops : DoubleOps) (tags : List Tag) (arcs : List Arc)
    (i c : Nat) (visit : Nat) :
    ∃ f : Tag → Tag, Tag__update_via_arc ops tags arcs i c = updateTag tags c f
      ∧ TagStep visit f := by
  unfold Tag__update_via_arc
  dsimp only []
  split
  · exact ⟨_, rfl, fun t => ⟨rfl, rfl, fun h => h⟩⟩
  · exact ⟨_, rfl, fun t => ⟨rfl, rfl, fun h => h⟩⟩

theorem sumIncidence_updateTag {tags : List Tag} {id : Nat} {f : Tag → Tag}
    (hf : ∀ t, (f t).arcs = t.arcs) :
    sumIncidence (updateTag tags id f) = sumIncidence tags := by
  unfold sumIncidence updateTag
  rw [List.map_map]
  congr 1
  apply List.map_congr_left
  intro t _
  simp only [Function.comp]
  split <;> simp [hf]

theorem sumIncidence_update_via_arc (ops : DoubleOps) (tags : List Tag) (arcs : List Arc)
    (i c : Nat) : sumIncidence (Tag__update_via_arc ops tags arcs i c) = sumIncidence tags := by
  obtain ⟨f, he, hf⟩ := update_via_arc_as_updateTag ops tags arcs i c 0
  rw [he]
  exact sumIncidence_updateTag (fun t => (hf t).2.1)

theorem mem_arcs_le_sumIncidence {tags : List Tag} {t : Tag} (ht : t ∈ tags) :
    t.arcs.length ≤ sumIncidence tags := by
  induction tags with
  | nil => simp at ht
  | cons x xs ih =>
    unfold sumIncidence at *
    rcases List.mem_cons.mp ht with rfl | ht2
    · simp only [List.map_cons, List.sum_cons]
      omega
    · have := ih ht2
      simp only [List.map_cons, List.sum_cons]
      omega

theorem mem_of_mem_set {α : Type} : ∀ {l : List α} {i : Nat} {b a : α},
    a ∈ l.set i b → a = b ∨ a ∈ l
  | [], _, _, _, h => by simp at h
  | x :: xs, 0, b, a, h => by
      rcases List.mem_cons.mp h with rfl | h2
      · exact Or.inl rfl
      · exact Or.inr (List.mem_cons_of_mem _ h2)
  | x :: xs, i + 1, b, a, h => by
      rcases List.mem_cons.mp h with rfl | h2
      · exact Or.inr (List.mem_cons_self _ _)
      · rcases mem_of_mem_set h2 with h3 | h3
        · exact Or.inl h3
        · exact Or.inr (List.mem_cons_of_mem _ h3)

theorem arcAt_getElem? {arcs : List Arc} {i : Nat} (h : i < arcs.length) :
    arcs[i]? = some (arcAt arcs i) := by
  unfold arcAt
  rw [List.getD_eq_getElem?_getD, List.getElem?_eq_getElem h]
  rfl

theorem arcAt_mem {arcs : List Arc} {i : Nat} (h : i < arcs.length) : arcAt arcs i ∈ arcs := by
  have harc : arcs[i]? = some (arcAt arcs i) := arcAt_getElem? h
  exact List.getElem?_mem harc

theorem frontierOk_sortBy {visit : Nat} {tags : List Tag} {arcs : List Arc}
    {le : Nat → Nat → Bool} {l : List Nat} (h : frontierOk visit tags arcs l) :
    frontierOk visit tags arcs (sortBy le l) :=
  fun i hi => h i (mem_sortBy.mp hi)

theorem measure_tree_lt {P A S U2s Us fuel : Nat} (hP : 1 ≤ P) (hA : A ≤ S)
    (hmul : U2s + (S + 1) ≤ Us) (hlt : P + Us < fuel + 1) :
    P - 1 + A + U2s < fuel := by omega

theorem measure_skip_lt {P Us fuel : Nat} (hP : 1 ≤ P) (hlt : P + Us < fuel + 1) :
    P - 1 + Us < fuel := by omega

theorem measure_cross_lt {P S U2s Us fuel : Nat} (hP : 1 ≤ P)
    (hmul : U2s + (S + 1) ≤ Us) (hlt : P + Us < fuel + 1) :
    P - 1 + U2s < fuel := by omega

theorem sumIncidence_set_hop (tags : List Tag) (id n : Nat) :
    sumIncidence (updateTag tags id (fun u => { u with hop_count := n })) = sumIncidence tags :=
  sumIncidence_updateTag (fun u => rfl)

theorem sumIncidence_set_visit (tags : List Tag) (id v : Nat) :
    sumIncidence (updateTag tags id (fun u => { u with visit := v })) = sumIncidence tags :=
  sumIncidence_updateTag (fun u => rfl)

/-- The invariants carried through one tree-growth step of the loop:
the child's generation stamp makes every frontier entry — old or freshly
appended from the child's incident list — keep a visited endpoint. -/
theorem tree_branch_invariants {visit : Nat} {tags tags3 : List Tag}
    {arcs : List Arc} {pending rest : List Nat} {i : Nat} {child_end : Nat} {ct0 : Tag}
    (b : Bool) (hilen : i < arcs.length)
    (hnod3 : idsNodup tags3)
    (hsrc : ∀ t2 ∈ tags3, ∃ t ∈ tags, t2.id = t.id ∧ t2.arcs = t.arcs)
    (htgt : ∀ t ∈ tags, ∃ t2 ∈ tags3, t2.id = t.id ∧ (t.visit = visit → t2.visit = visit))
    (hchild : ∃ t2 ∈ tags3, t2.id = child_end ∧ t2.visit = visit)
    (hrefs : arcRefsOk tags arcs) (hpres : endpointsPresent tags arcs)
    (hfront : frontierOk visit tags arcs pending)
    (hrest : ∀ j ∈ rest, j ∈ pending)
    (hct0 : ct0 ∈ tags) (hct0id : ct0.id = child_end) :
    arcRefsOk tags3 (arcs.set i { arcAt arcs i with visit := visit, in_tree := b })
    ∧ endpointsPresent tags3 (arcs.set i { arcAt arcs i with visit := visit, in_tree := b })
    ∧ frontierOk visit tags3 (arcs.set i { arcAt arcs i with visit := visit, in_tree := b })
        (rest ++ ct0.arcs) := by
  have hlen2 : (arcs.set i { arcAt arcs i with visit := visit, in_tree := b }).length
      = arcs.length := List.length_set arcs i _
  have hends2 := @arcAt_set_endpoint_eq
    arcs i { arcAt arcs i with visit := visit, in_tree := b } rfl rfl
  refine ⟨?_, ?_, ?_⟩
  · intro t2 ht2 j hj
    obtain ⟨t, ht, hid, harcs⟩ := hsrc t2 ht2
    rw [harcs] at hj
    obtain ⟨hlen, hend⟩ := hrefs t ht j hj
    refine ⟨by omega, ?_⟩
    rw [(hends2 j).1, (hends2 j).2, hid]
    exact hend
  · intro a ha
    have hsplit : a = { arcAt arcs i with visit := visit, in_tree := b } ∨ a ∈ arcs :=
      mem_of_mem_set ha
    have hends : (∃ t ∈ tags, t.id = a.from_tag) ∧ (∃ t ∈ tags, t.id = a.to_tag) := by
      rcases hsplit with rfl | ha2
      · exact hpres (arcAt arcs i) (arcAt_mem hilen)
      · exact hpres a ha2
    obtain ⟨⟨t1, ht1, ht1id⟩, ⟨t2, ht2, ht2id⟩⟩ := hends
    obtain ⟨u1, hu1, hu1id, -⟩ := htgt t1 ht1
    obtain ⟨u2, hu2, hu2id, -⟩ := htgt t2 ht2
    exact ⟨⟨u1, hu1, by rw [hu1id, ht1id]⟩, ⟨u2, hu2, by rw [hu2id, ht2id]⟩⟩
  · intro j hj
    rcases List.mem_append.mp hj with hj | hj
    · obtain ⟨hlen, t, ht, htend, htvis⟩ := hfront j (hrest j hj)
      obtain ⟨u, hu, huid, huvis⟩ := htgt t ht
      refine ⟨by omega, u, hu, ?_, huvis htvis⟩
      rw [(hends2 j).1, (hends2 j).2, huid]
      exact htend
    · obtain ⟨hlen, hend⟩ := hrefs ct0 hct0 j hj
      obtain ⟨u, hu, huid, huvis⟩ := hchild
      refine ⟨by omega, u, hu, ?_, huvis⟩
      rw [(hends2 j).1, (hends2 j).2, huid, ← hct0id]
      rcases hend with hend | hend
      · exact Or.inl hend.symm
      · exact Or.inr hend.symm

/-- The complete bundle of facts about one tree-growth step: the updated tag
list keeps unique ids and total incidence, and together with the stamped
arena it satisfies all loop invariants for the extended frontier. -/
theorem tree_branch_full {visit : Nat} {tags : List Tag} {arcs : List Arc}
    {pending rest : List Nat} {i CE : Nat} {ct0 : Tag} (ops : DoubleOps)
    (arcsArg : List Arc) (n : Nat) (b : Bool)
    (hilen : i < arcs.length) (hnod : idsNodup tags)
    (hrefs : arcRefsOk tags arcs) (hpres : endpointsPresent tags arcs)
    (hfront : frontierOk visit tags arcs pending)
    (hrest : ∀ j ∈ rest, j ∈ pending)
    (hct0 : ct0 ∈ tags) (hct0id : ct0.id = CE) :
    idsNodup (Tag__update_via_arc ops
        (updateTag (updateTag tags CE (fun u => { u with hop_count := n }))
          CE (fun u => { u with visit := visit })) arcsArg i CE)
    ∧ arcRefsOk (Tag__update_via_arc ops
        (updateTag (updateTag tags CE (fun u => { u with hop_count := n }))
          CE (fun u => { u with visit := visit })) arcsArg i CE)
        (arcs.set i { arcAt arcs i with visit := visit, in_tree := b })
    ∧ endpointsPresent (Tag__update_via_arc ops
        (updateTag (updateTag tags CE (fun u => { u with hop_count := n }))
          CE (fun u => { u with visit := visit })) arcsArg i CE)
        (arcs.set i { arcAt arcs i with visit := visit, in_tree := b })
    ∧ frontierOk visit (Tag__update_via_arc ops
        (updateTag (updateTag tags CE (fun u => { u with hop_count := n }))
          CE (fun u => { u with visit := visit })) arcsArg i CE)
        (arcs.set i { arcAt arcs i with visit := visit, in_tree := b })
        (rest ++ ct0.arcs)
    ∧ sumIncidence (Tag__update_via_arc ops
        (updateTag (updateTag tags CE (fun u => { u with hop_count := n }))
          CE (fun u => { u with visit := visit })) arcsArg i CE)
      = sumIncidence tags := by
  obtain ⟨fva, heva, hfva⟩ := update_via_arc_as_updateTag ops
    (updateTag (updateTag tags CE (fun u => { u with hop_count := n }))
      CE (fun u => { u with visit := visit })) arcsArg i CE visit
  have hstep1 : TagStep visit (fun u : Tag => { u with hop_count := n }) :=
    fun u => ⟨rfl, rfl, fun h => h⟩
  have hstep2 : TagStep visit (fun u : Tag => { u with visit := visit }) :=
    fun u => ⟨rfl, rfl, fun _ => rfl⟩
  have hnod3 : idsNodup (Tag__update_via_arc ops
      (updateTag (updateTag tags CE (fun u => { u with hop_count := n }))
        CE (fun u => { u with visit := visit })) arcsArg i CE) :=
    idsNodup_update_via_arc
      (idsNodup_updateTag (fun u => rfl) (idsNodup_updateTag (fun u => rfl) hnod))
  have hsrc : ∀ t2 ∈ Tag__update_via_arc ops
      (updateTag (updateTag tags CE (fun u => { u with hop_count := n }))
        CE (fun u => { u with visit := visit })) arcsArg i CE,
      ∃ t ∈ tags, t2.id = t.id ∧ t2.arcs = t.arcs := by
    intro t2 ht2
    rw [heva] at ht2
    obtain ⟨u1, hu1, hid1, harcs1⟩ := updateTag_source hfva t2 ht2
    obtain ⟨u0, hu0, hid0, harcs0⟩ := updateTag_source hstep2 u1 hu1
    obtain ⟨u, hu, hidu, harcsu⟩ := updateTag_source hstep1 u0 hu0
    exact ⟨u, hu, by rw [hid1, hid0, hidu], by rw [harcs1, harcs0, harcsu]⟩
  have htgt : ∀ t ∈ tags, ∃ t2 ∈ Tag__update_via_arc ops
      (updateTag (updateTag tags CE (fun u => { u with hop_count := n }))
        CE (fun u => { u with visit := visit })) arcsArg i CE,
      t2.id = t.id ∧ (t.visit = visit → t2.visit = visit) := by
    intro t ht
    obtain ⟨u0, hu0, hid0, hvis0⟩ := updateTag_target hstep1 t ht
    obtain ⟨u1, hu1, hid1, hvis1⟩ := updateTag_target hstep2 u0 hu0
    rw [heva]
    obtain ⟨u2, hu2, hid2, hvis2⟩ := updateTag_target hfva u1 hu1
    exact ⟨u2, hu2, by rw [hid2, hid1, hid0], fun hh => hvis2 (hvis1 (hvis0 hh))⟩
  have hchild : ∃ t2 ∈ Tag__update_via_arc ops
      (updateTag (updateTag tags CE (fun u => { u with hop_count := n }))
        CE (fun u => { u with visit := visit })) arcsArg i CE,
      t2.id = CE ∧ t2.visit = visit := by
    have hu0 : (if ct0.id = CE then ({ ct0 with hop_count := n } : Tag) else ct0)
        ∈ updateTag tags CE (fun u => { u with hop_count := n }) :=
      mem_updateTag hct0
    rw [if_pos hct0id] at hu0
    have hu1 : (if ({ ct0 with hop_count := n } : Tag).id = CE
        then ({ ({ ct0 with hop_count := n } : Tag) with visit := visit } : Tag)
        else { ct0 with hop_count := n })
        ∈ updateTag (updateTag tags CE (fun u => { u with hop_count := n }))
          CE (fun u => { u with visit := visit }) :=
      mem_updateTag hu0
    rw [if_pos hct0id] at hu1
    rw [heva]
    obtain ⟨u2, hu2, hid2, hvis2⟩ := updateTag_target hfva _ hu1
    exact ⟨u2, hu2, by rw [hid2]; exact hct0id, hvis2 rfl⟩
  obtain ⟨hr3, hp3, hf3⟩ := tree_branch_invariants b hilen hnod3 hsrc htgt hchild
    hrefs hpres hfront hrest hct0 hct0id
  refine ⟨hnod3, hr3, hp3, hf3, ?_⟩
  rw [heva]
  rw [sumIncidence_updateTag (fun u => (hfva u).2.1), sumIncidence_set_visit,
    sumIncidence_set_hop]

/-- Frontier safety: with unique ids, well-formed incidence lists, present
endpoints and a frontier whose every entry has a visited endpoint, the
propagation loop (given its stated fuel) never returns `none` — in
particular the both-endpoints-new `assert` branch is never taken. -/
theorem propagateFuel_isSome (ops : DoubleOps) (visit : Nat) :
    ∀ (fuel : Nat) (tags : List Tag) (arcs : List Arc) (pending : List Nat),
      propagateMeasure visit tags arcs pending < fuel →
      idsNodup tags → arcRefsOk tags arcs → endpointsPresent tags arcs →
      frontierOk visit tags arcs pending →
      (propagateFuel ops visit fuel tags arcs pending).isSome := by
  intro fuel
  induction fuel with
  | zero =>
    intro tags arcs pending hm
    exact absurd hm (Nat.not_lt_zero _)
  | succ fuel ih =>
    intro tags arcs pending hm hnod hrefs hpres hfront
    rw [propagateFuel]
    cases hlast : pending.getLast? with
    | none => simp
    | some i =>
      have himem : i ∈ pending := List.mem_of_getLast?_eq_some hlast
      have hP : 1 ≤ pending.length := List.length_pos.mpr (by
        intro hnil
        rw [hnil] at himem
        simp at himem)
      obtain ⟨hilen, tv, htvmem, htvend, htvvis⟩ := hfront i himem
      simp only [hlast, arcAt_getElem? hilen]
      by_cases hv : (arcAt arcs i).visit = visit
      · rw [if_pos hv]
        refine ih tags arcs pending.dropLast ?_ hnod hrefs hpres
          (fun j hj => hfront j (mem_dropLast hj))
        unfold propagateMeasure at hm ⊢
        rw [List.length_dropLast]
        exact measure_skip_lt hP hm
      · rw [if_neg hv]
        obtain ⟨⟨tf, htfmem, htfid⟩, ⟨tto, httomem, httoid⟩⟩ :=
          hpres (arcAt arcs i) (arcAt_mem hilen)
        have hftEq : findTag tags (arcAt arcs i).from_tag = some tf :=
          findTag_eq_of_nodup hnod htfmem htfid
        have httEq : findTag tags (arcAt arcs i).to_tag = some tto :=
          findTag_eq_of_nodup hnod httomem httoid
        simp only [hftEq, httEq]
        have hvd : tf.visit = visit ∨ tto.visit = visit := by
          rcases htvend with hend | hend
          · left
            have hv2 := findTag_eq_of_nodup hnod htvmem hend
            rw [hv2] at hftEq
            cases hftEq
            exact htvvis
          · right
            have hv2 := findTag_eq_of_nodup hnod htvmem hend
            rw [hv2] at httEq
            cases httEq
            exact htvvis
        by_cases hfn : tf.visit ≠ visit
        · rw [if_pos hfn]
          have httov : tto.visit = visit := by
            rcases hvd with hvd | hvd
            · exact absurd hvd hfn
            · exact hvd
          rw [if_neg (not_not_intro httov)]
          simp only [setArc, List.set_set]
          obtain ⟨hn3, hr3, hp3, hf3, hS3⟩ := @tree_branch_full
            visit tags arcs pending pending.dropLast i
            (arcAt arcs i).from_tag tf ops
            (arcs.set i { arcAt arcs i with visit := visit })
            (tto.hop_count + 1) true hilen hnod hrefs hpres hfront
            (fun j hj => mem_dropLast hj) htfmem htfid
          refine ih _ _ _ ?_ hn3 hr3 hp3 (frontierOk_sortBy hf3)
          unfold propagateMeasure at hm ⊢
          rw [length_sortBy, List.length_append, List.length_dropLast, hS3]
          refine measure_tree_lt hP (mem_arcs_le_sumIncidence htfmem) ?_ hm
          have h1 : unvisitedCount
              (arcs.set i { arcAt arcs i with visit := visit, in_tree := true }) visit + 1
              ≤ unvisitedCount arcs visit :=
            unvisitedCount_set_lt (arcAt_getElem? hilen) hv rfl
          calc unvisitedCount
                (arcs.set i { arcAt arcs i with visit := visit, in_tree := true }) visit
                * (sumIncidence tags + 1) + (sumIncidence tags + 1)
              = (unvisitedCount
                  (arcs.set i { arcAt arcs i with visit := visit, in_tree := true }) visit + 1)
                * (sumIncidence tags + 1) := (Nat.succ_mul _ _).symm
            _ ≤ unvisitedCount arcs visit * (sumIncidence tags + 1) :=
                Nat.mul_le_mul_right _ h1
        · rw [if_neg hfn]
          by_cases htn : tto.visit ≠ visit
          · rw [if_pos htn]
            simp only [setArc, List.set_set]
            obtain ⟨hn3, hr3, hp3, hf3, hS3⟩ := @tree_branch_full
              visit tags arcs pending pending.dropLast i
              (arcAt arcs i).to_tag tto ops
              (arcs.set i { arcAt arcs i with visit := visit })
              (tf.hop_count + 1) true hilen hnod hrefs hpres hfront
              (fun j hj => mem_dropLast hj) httomem httoid
            refine ih _ _ _ ?_ hn3 hr3 hp3 (frontierOk_sortBy hf3)
            unfold propagateMeasure at hm ⊢
            rw [length_sortBy, List.length_append, List.length_dropLast, hS3]
            refine measure_tree_lt hP (mem_arcs_le_sumIncidence httomem) ?_ hm
            have h1 : unvisitedCount
                (arcs.set i { arcAt arcs i with visit := visit, in_tree := true }) visit + 1
                ≤ unvisitedCount arcs visit :=
              unvisitedCount_set_lt (arcAt_getElem? hilen) hv rfl
            calc unvisitedCount
                  (arcs.set i { arcAt arcs i with visit := visit, in_tree := true }) visit
                  * (sumIncidence tags + 1) + (sumIncidence tags + 1)
                = (unvisitedCount
                    (arcs.set i { arcAt arcs i with visit := visit, in_tree := true }) visit + 1)
                  * (sumIncidence tags + 1) := (Nat.succ_mul _ _).symm
              _ ≤ unvisitedCount arcs visit * (sumIncidence tags + 1) :=
                  Nat.mul_le_mul_right _ h1
          · rw [if_neg htn]
            simp only [setArc, List.set_set]
            refine ih tags _ pending.dropLast ?_ hnod ?_ ?_ ?_
            · unfold propagateMeasure at hm ⊢
              rw [List.length_dropLast]
              refine @measure_cross_lt _ (sumIncidence tags) _ _ _ hP ?_ hm
              have h1 : unvisitedCount
                  (arcs.set i { arcAt arcs i with visit := visit, in_tree := false }) visit + 1
                  ≤ unvisitedCount arcs visit :=
                unvisitedCount_set_lt (arcAt_getElem? hilen) hv rfl
              calc unvisitedCount
                    (arcs.set i { arcAt arcs i with visit := visit, in_tree := false }) visit
                    * (sumIncidence tags + 1) + (sumIncidence tags + 1)
                  = (unvisitedCount
                      (arcs.set i { arcAt arcs i with visit := visit, in_tree := false }) visit + 1)
                    * (sumIncidence tags + 1) := (Nat.succ_mul _ _).symm
                _ ≤ unvisitedCount arcs visit * (sumIncidence tags + 1) :=
                    Nat.mul_le_mul_right _ h1
            · intro t ht j hj
              obtain ⟨hlen, hend⟩ := hrefs t ht j hj
              have hends2 := @arcAt_set_endpoint_eq
                arcs i { arcAt arcs i with visit := visit, in_tree := false } rfl rfl
              refine ⟨by rw [List.length_set]; omega, ?_⟩
              rw [(hends2 j).1, (hends2 j).2]
              exact hend
            · intro a ha
              rcases mem_of_mem_set ha with rfl | ha2
              · exact hpres (arcAt arcs i) (arcAt_mem hilen)
              · exact hpres a ha2
            · intro j hj
              obtain ⟨hlen, t, ht, htend, htvis⟩ := hfront j (mem_dropLast hj)
              have hends2 := @arcAt_set_endpoint_eq
                arcs i { arcAt arcs i with visit := visit, in_tree := false } rfl rfl
              refine ⟨by rw [List.length_set]; omega, t, ht, ?_, htvis⟩
              rw [(hends2 j).1, (hends2 j).2]
              exact htend

/-- The engine well-formedness used by the frontier-safety claim: unique tag
ids, every incident-arc reference valid and naming its owner, every arc's
endpoints present, and no stale pending arcs between updates. -/
def MapWF (m : Map) : Prop :=
  idsNodup m.all_tags ∧ arcRefsOk m.all_tags m.arcs
    ∧ endpointsPresent m.all_tags m.arcs ∧ m.pending_arcs = []

instance (m : Map) : Decidable (MapWF m) := by
  unfold MapWF
  infer_instance

/-- C8 — Frontier safety: on a well-formed engine (with a marker to serve as
origin when a re-propagation is due), `Map__update` never crashes: every
frontier arc popped by the spanning-tree loop has at least one endpoint
already stamped with the current generation, so the both-endpoints-new
branch (the C `assert`) is unreachable and the loop terminates normally. -/
theorem claim8_no_assert_failure (ops : DoubleOps) (m : Map) (hwf : MapWF m)
    (hne : m.is_changed = true → m.all_tags ≠ []) :
    (Map__update ops m).isSome := by
  obtain ⟨hnod, hrefs, hpres, hpend⟩ := hwf
  by_cases hc : m.is_changed = true
  · have hne2 := hne hc
    cases hsort : sortBy tagLe m.all_tags with
    | nil =>
      cases hmt : m.all_tags with
      | nil => exact absurd hmt hne2
      | cons a as =>
        have ham : a ∈ sortBy tagLe m.all_tags := mem_sortBy.mpr (by
          rw [hmt]
          exact List.mem_cons_self a as)
        rw [hsort] at ham
        simp at ham
    | cons origin rest =>
      have hmemS : ∀ t ∈ origin :: rest, t ∈ m.all_tags := by
        intro t ht
        have h2 : t ∈ sortBy tagLe m.all_tags := by
          rw [hsort]
          exact ht
        exact mem_sortBy.mp h2
      have hmemS2 : ∀ t ∈ m.all_tags, t ∈ origin :: rest := by
        intro t ht
        have h2 : t ∈ sortBy tagLe m.all_tags := mem_sortBy.mpr ht
        rw [hsort] at h2
        exact h2
      have hstep : TagStep (m.visit + 1)
          (fun t : Tag => { t with visit := m.visit + 1, hop_count := 0 }) :=
        fun _ => ⟨rfl, rfl, fun _ => rfl⟩
      have hnodS : idsNodup (origin :: rest) := by
        have h2 := @idsNodup_sortBy tagLe m.all_tags hnod
        rw [hsort] at h2
        exact h2
      have hnod1 : idsNodup (updateTag (origin :: rest) origin.id
          (fun t => { t with visit := m.visit + 1, hop_count := 0 })) :=
        idsNodup_updateTag (fun t => rfl) hnodS
      have hrefs1 : arcRefsOk (updateTag (origin :: rest) origin.id
          (fun t => { t with visit := m.visit + 1, hop_count := 0 })) m.arcs := by
        intro t2 ht2 i hi
        obtain ⟨t, htS, hid, harcs⟩ := updateTag_source hstep t2 ht2
        obtain ⟨hlen, hend⟩ := hrefs t (hmemS t htS) i (by
          rw [← harcs]
          exact hi)
        refine ⟨hlen, ?_⟩
        rw [hid]
        exact hend
      have hpres1 : endpointsPresent (updateTag (origin :: rest) origin.id
          (fun t => { t with visit := m.visit + 1, hop_count := 0 })) m.arcs := by
        intro a ha
        obtain ⟨⟨tf, htf, htfid⟩, ⟨tt, htt, httid⟩⟩ := hpres a ha
        obtain ⟨t2, ht2, ht2id, _⟩ := updateTag_target hstep tf (hmemS2 tf htf)
        obtain ⟨t3, ht3, ht3id, _⟩ := updateTag_target hstep tt (hmemS2 tt htt)
        exact ⟨⟨t2, ht2, by rw [ht2id]; exact htfid⟩, ⟨t3, ht3, by rw [ht3id]; exact httid⟩⟩
      have horigin : origin ∈ m.all_tags := hmemS origin (List.mem_cons_self origin rest)
      have hfront0 : frontierOk (m.visit + 1) (updateTag (origin :: rest) origin.id
          (fun t => { t with visit := m.visit + 1, hop_count := 0 })) m.arcs
          origin.arcs := by
        intro i hi
        obtain ⟨hlen, hend⟩ := hrefs origin horigin i hi
        refine ⟨hlen, ?_⟩
        have hmem1 : (if origin.id = origin.id then
            ({ origin with visit := m.visit + 1, hop_count := 0 } : Tag) else origin)
            ∈ updateTag (origin :: rest) origin.id
              (fun t => { t with visit := m.visit + 1, hop_count := 0 }) :=
          mem_updateTag (List.mem_cons_self origin rest)
        rw [if_pos rfl] at hmem1
        refine ⟨{ origin with visit := m.visit + 1, hop_count := 0 }, hmem1, ?_, rfl⟩
        rcases hend with hend | hend
        · exact Or.inl hend.symm
        · exact Or.inr hend.symm
      have hprop : (propagateFuel ops (m.visit + 1)
          (propagateMeasure (m.visit + 1)
            (updateTag (origin :: rest) origin.id
              (fun t => { t with visit := m.visit + 1, hop_count := 0 }))
            m.arcs
            (sortBy (distanceLe
                (updateTag (origin :: rest) origin.id
                  (fun t => { t with visit := m.visit + 1, hop_count := 0 }))
                m.arcs) origin.arcs) + 1)
          (updateTag (origin :: rest) origin.id
            (fun t => { t with visit := m.visit + 1, hop_count := 0 }))
          m.arcs
          (sortBy (distanceLe
              (updateTag (origin :: rest) origin.id
                (fun t => { t with visit := m.visit + 1, hop_count := 0 }))
              m.arcs) origin.arcs)).isSome :=
        propagateFuel_isSome ops (m.visit + 1) _ _ _ _ (Nat.lt_succ_self _)
          hnod1 hrefs1 hpres1 (frontierOk_sortBy hfront0)
      obtain ⟨p, hp⟩ := Option.isSome_iff_exists.mp hprop
      obtain ⟨p1, p2⟩ := p
      unfold Map__update
      rw [if_pos hc]
      simp only [hsort, hpend, List.nil_append, propagate, hp]
      rfl
  · unfold Map__update
    rw [if_neg hc]
    rfl

/-- C8 witness: a concrete well-formed engine (markers 1 and 2 joined by one
measured arc, ingested through the real pipeline) on which `Map__update`
returns successfully. -/
theorem claim8_no_assert_failure_witness :
    MapWF ((runOps opsId Map__new [Op.tag_lookup 1, Op.tag_lookup 2,
        Op.arc_update exCameraFrom exCameraToFar exImage]).getD Map__new)
    ∧ (((runOps opsId Map__new [Op.tag_lookup 1, Op.tag_lookup 2,
          Op.arc_update exCameraFrom exCameraToFar exImage]).getD Map__new).is_changed = true
        → ((runOps opsId Map__new [Op.tag_lookup 1, Op.tag_lookup 2,
            Op.arc_update exCameraFrom exCameraToFar exImage]).getD Map__new).all_tags ≠ [])
    ∧ (Map__update opsId ((runOps opsId Map__new [Op.tag_lookup 1, Op.tag_lookup 2,
        Op.arc_update exCameraFrom exCameraToFar exImage]).getD Map__new)).isSome :=
  ⟨by decide, by decide,
    claim8_no_assert_failure opsId _ (by decide) (by decide)⟩

end Fiducials
